import Mathlib

/-!
Verification development for the `envsnap` command-line tool
(`envsnap/__main__.py`).  The Python source is shallowly embedded:

* a snapshot record (the JSON object written by `save_snapshot`) becomes
  the structure `Snapshot`, whose field order matches the insertion order
  of the Python dict built in `save_snapshot`;
* Python dicts that the code iterates in insertion order become
  association lists (`List (String × String)`) together with the
  assignment operation `dictInsert` (overwrite-in-place or append);
* `flatten_snapshot`, `compare_snapshots`, `view_snapshot`,
  `report_snapshot`, the `restore` dispatch and the collector functions
  are translated directly;
* `difflib.get_close_matches` (called by `resolve_snapshot_name` with
  `n=1, cutoff=0.3`) is embedded in full: `SequenceMatcher` with
  `isjunk=None` (so the junk set is empty) and the `autojunk` popularity
  rule, `find_longest_match`, `get_matching_blocks`, `ratio`,
  `quick_ratio` and `real_quick_ratio`.  Float arithmetic on ratios is
  idealised as exact rational arithmetic (`ℚ`).
-/

set_option maxRecDepth 10000

/-- The snapshot record assembled by `save_snapshot`, fields in the
insertion order of the Python dict (`timestamp`, `python_version`,
`virtualenv`, `packages`, `git_branch`, `env_vars`). -/
structure Snapshot where
  timestamp : String
  python_version : String
  virtualenv : String
  packages : List String
  git_branch : String
  env_vars : List (String × String)
deriving DecidableEq, Repr

/-- Python dict assignment `d[k] = v` on an insertion-ordered dict:
overwrite the value in place if the key is present, else append. -/
def dictInsert (m : List (String × String)) (k v : String) :
    List (String × String) :=
  if k ∈ m.map Prod.fst then
    m.map (fun kv => if kv.1 = k then (k, v) else kv)
  else
    m ++ [(k, v)]

/-- Python `d.get(k)` as an `Option`: the value at the first (unique)
occurrence of the key. -/
def dictGet? (m : List (String × String)) (k : String) : Option String :=
  (m.find? (fun kv => kv.1 = k)).map Prod.snd

/-- Python `d.get(k, dflt)`. -/
def dictGetD (m : List (String × String)) (k : String) (dflt : String) :
    String :=
  (dictGet? m k).getD dflt

/-- The local `flatten_snapshot` of `compare_snapshots`: iterate the
record's items in insertion order; `packages` entries become
`"package:" ++ pkg ↦ "installed"`, the nested dict `env_vars` becomes
`"env_vars:" ++ k ↦ v`, every other (scalar) field becomes
`field ↦ value`. -/
def flatten_snapshot (s : Snapshot) : List (String × String) :=
  let f := dictInsert [] "timestamp" s.timestamp
  let f := dictInsert f "python_version" s.python_version
  let f := dictInsert f "virtualenv" s.virtualenv
  let f := s.packages.foldl
    (fun m pkg => dictInsert m ("package:" ++ pkg) "installed") f
  let f := dictInsert f "git_branch" s.git_branch
  s.env_vars.foldl
    (fun m kv => dictInsert m ("env_vars:" ++ kv.1) kv.2) f

/-- The sentinel used by `compare_snapshots` for a key absent from one
flattened mapping. -/
def missingSentinel : String := "<missing>"

/-- Python's lexicographic (code-point) order on character lists:
`[] ≤ l`, and `c :: cs ≤ d :: ds` iff `c < d`, or `c = d` and
`cs ≤ ds`. -/
def charListLe : List Char → List Char → Bool
  | [], _ => true
  | _ :: _, [] => false
  | c :: cs, d :: ds => if c = d then charListLe cs ds else decide (c < d)

/-- Python's `str` comparison used by `sorted`. -/
def pyStrLe (a b : String) : Bool := charListLe a.data b.data

/-- Python `sorted(set(xs))` on strings: distinct elements in increasing
lexicographic (code-point) order. -/
def pySortedDedup (l : List String) : List String :=
  List.insertionSort (fun a b => pyStrLe a b = true) l.dedup

/-- The difference list printed by `compare_snapshots`: for each key of
the sorted union of the two flattened key sets, look both values up with
default `"<missing>"` and emit `(key, val1, val2)` when they differ. -/
def compare_snapshots (s1 s2 : Snapshot) :
    List (String × String × String) :=
  (pySortedDedup ((flatten_snapshot s1).map Prod.fst
      ++ (flatten_snapshot s2).map Prod.fst)).filterMap (fun key =>
    if dictGetD (flatten_snapshot s1) key missingSentinel
        ≠ dictGetD (flatten_snapshot s2) key missingSentinel then
      some (key, dictGetD (flatten_snapshot s1) key missingSentinel,
        dictGetD (flatten_snapshot s2) key missingSentinel)
    else none)

/-- The lines printed by the success branch of `view_snapshot` (one
string per `print` call; a leading `\n` inside an f-string stays inside
the line). -/
def view_snapshot_lines (resolved_name : String) (data : Snapshot) :
    List String :=
  ["\n📦 Snapshot: " ++ resolved_name,
   "🕒 Timestamp: " ++ data.timestamp,
   "🐍 Python: " ++ data.python_version,
   "📁 Virtualenv: " ++ data.virtualenv,
   "🌿 Git Branch: " ++ data.git_branch,
   "🔑 Env Vars:"]
  ++ data.env_vars.map (fun kv => "   " ++ kv.1 ++ " = " ++ kv.2)
  ++ ["📦 Packages: " ++ toString data.packages.length ++ " installed"]
  ++ (data.packages.take 10).map (fun pkg => "   - " ++ pkg)
  ++ (if 10 < data.packages.length then ["   ... (truncated)"] else [])

/-- The lines printed by `report_snapshot` after the record is loaded. -/
def report_snapshot_lines (name : String) (data : Snapshot) :
    List String :=
  ["\n📋 Summary Report for '" ++ name ++ "'",
   "----------------------------",
   "📅 Timestamp       : " ++ data.timestamp,
   "🐍 Python Version  : " ++ data.python_version,
   "🌿 Git Branch      : " ++ data.git_branch,
   "📁 Virtualenv Path : " ++ data.virtualenv,
   "🔑 Env Vars Count  : " ++ toString data.env_vars.length,
   "📦 Package Count   : " ++ toString data.packages.length,
   "📦 Top Packages    :"]
  ++ (data.packages.take 10).map (fun pkg => "   - " ++ pkg)
  ++ (if 10 < data.packages.length then ["   ... (truncated)"] else [])

/-- The truncation marker appended by `view_snapshot` and
`report_snapshot` when more than 10 packages are stored. -/
def truncationMarker : String := "   ... (truncated)"

/-- The snapshot store: names mapped to persisted records (one
`<name>.json` file per snapshot). -/
def Store := List (String × Snapshot)

/-- `restore_env_vars`: resolve the name, and if the record exists print
one `export K=V` line per stored environment variable, else print the
not-found message.  It never writes to the store. -/
def restore_env_vars_lines (store : Store) (names : List String)
    (resolve : String → List String → String) (name : String) :
    List String :=
  let resolved_name := resolve name names
  match (List.find? (fun nv => nv.1 = resolved_name) store) with
  | none => ["❌ Snapshot not found."]
  | some nv =>
      nv.2.env_vars.map (fun kv => "export " ++ kv.1 ++ "=" ++ kv.2)

/-- The `restore` branch of `main`: with `--env-vars` it runs
`restore_env_vars`, otherwise it only prints the advisory.  The result
pairs the (unchanged) store with the printed lines. -/
def restore_dispatch (env_vars_flag : Bool) (store : Store)
    (names : List String) (resolve : String → List String → String)
    (name : String) : Store × List String :=
  if env_vars_flag then
    (store, restore_env_vars_lines store names resolve name)
  else
    (store, ["⚠️ Add --env-vars to restore environment variables"])

/-- Outcome of a `subprocess.check_output` call: captured stdout, a
non-zero exit status (`subprocess.CalledProcessError`), or a missing
executable (`FileNotFoundError`, an `OSError` raised by `Popen`). -/
inductive SubprocessResult where
  | output (s : String)
  | calledProcessError
  | fileNotFoundError
deriving DecidableEq

/-- Python `str.splitlines` restricted to `\n` separators: empty string
gives no lines, a trailing newline does not produce a final empty
line. -/
def pySplitlines (s : String) : List String :=
  if s = "" then []
  else
    let parts := s.splitOn "\n"
    if parts.getLast? = some "" then parts.dropLast else parts

/-- `get_installed_packages`: decode and split the output of
`pip freeze`; a `CalledProcessError` is caught and yields `[]`; a
`FileNotFoundError` is not caught and propagates. -/
def get_installed_packages :
    SubprocessResult → Except Unit (List String)
  | .output s => .ok (pySplitlines s)
  | .calledProcessError => .ok []
  | .fileNotFoundError => .error ()

/-- `get_git_branch`: strip the output of `git rev-parse --abbrev-ref
HEAD`; a `CalledProcessError` is caught and yields the sentinel
`"none"`; a `FileNotFoundError` is not caught and propagates. -/
def get_git_branch : SubprocessResult → Except Unit String
  | .output s => .ok s.trim
  | .calledProcessError => .ok "none"
  | .fileNotFoundError => .error ()

/-- The record assembly in `save_snapshot`: the already-computed local
state (timestamp, interpreter version, virtualenv, environment) plus
the two external-tool invocations.  Any uncaught exception from those
invocations aborts the capture. -/
def collectSnapshot (ts pv ve : String) (pip git : SubprocessResult)
    (env : List (String × String)) : Except Unit Snapshot := do
  let packages ← get_installed_packages pip
  let branch ← get_git_branch git
  return { timestamp := ts, python_version := pv, virtualenv := ve,
           packages := packages, git_branch := branch, env_vars := env }

/-- The distinct sources of flattened keys in `flatten_snapshot`: the
four scalar fields, one package entry, or one `env_vars` inner key. -/
inductive FlatField where
  | timestampF
  | pythonVersionF
  | virtualenvF
  | gitBranchF
  | packageF (p : String)
  | envVarF (k : String)
deriving DecidableEq

/-- The flattened key produced for each key source, following the
`field:key` namespacing rule of `flatten_snapshot`. -/
def flatKey : FlatField → String
  | .timestampF => "timestamp"
  | .pythonVersionF => "python_version"
  | .virtualenvF => "virtualenv"
  | .gitBranchF => "git_branch"
  | .packageF p => "package:" ++ p
  | .envVarF k => "env_vars:" ++ k

/-- All positions of character `c` in `b`, in increasing order (the
`b2j` mapping built by `SequenceMatcher.__chain_b` before junk
removal). -/
def b2jAll (b : List Char) (c : Char) : List Nat :=
  (List.range b.length).filter (fun i => b.getD i ' ' = c)

/-- `b2j` with the `autojunk` heuristic: when `b` has at least 200
elements, characters occurring more than `len(b) // 100 + 1` times are
popular and dropped from `b2j` (they are not junk, so the extension
loops may still cross them). -/
def mkB2j (b : List Char) (c : Char) : List Nat :=
  if 200 ≤ b.length ∧ b.length / 100 + 1 < (b2jAll b c).length then []
  else b2jAll b c

/-- One row of the `find_longest_match` dynamic program: iterate the
candidate `j` positions in increasing order, skipping `j < blo`
(`continue`) and stopping at `bhi ≤ j` (`break`); each kept `j` records
run length `j2len[j-1] + 1` in the new row and updates the best block
when strictly longer. -/
def flmRow (i blo bhi : Nat) (j2len : Nat → Nat) :
    List Nat → (Nat → Nat) → Nat × Nat × Nat →
      ((Nat → Nat) × (Nat × Nat × Nat))
  | [], newj2len, best => (newj2len, best)
  | j :: js, newj2len, best =>
    if j < blo then flmRow i blo bhi j2len js newj2len best
    else if bhi ≤ j then (newj2len, best)
    else
      let k := (if j = 0 then 0 else j2len (j - 1)) + 1
      let newj2len' := fun j' => if j' = j then k else newj2len j'
      let best' := if best.2.2 < k then (i + 1 - k, j + 1 - k, k) else best
      flmRow i blo bhi j2len js newj2len' best'

/-- The row loop of `find_longest_match`: `n` remaining rows starting at
row `i`; each row starts from an empty `newj2len` (absent entries are
`0`, matching `j2len.get(j-1, 0)`). -/
def flmRows (a : List Char) (b2j : Char → List Nat) (blo bhi : Nat) :
    Nat → Nat → (Nat → Nat) → Nat × Nat × Nat → Nat × Nat × Nat
  | 0, _, _, best => best
  | n + 1, i, j2len, best =>
    let step := flmRow i blo bhi j2len (b2j (a.getD i ' ')) (fun _ => 0) best
    flmRows a b2j blo bhi n (i + 1) step.1 step.2

/-- The backward extension loop of `find_longest_match`.  The junk set
is empty here (`SequenceMatcher()` has `isjunk=None`), so
`not isbjunk(...)` always holds in this loop and the two later
junk-extension loops never fire. -/
def extendBack (a b : List Char) (alo blo : Nat) :
    Nat → Nat → Nat → Nat × Nat × Nat
  | 0, j, size => (0, j, size)
  | i + 1, j, size =>
    if alo < i + 1 ∧ blo < j ∧ a.getD i ' ' = b.getD (j - 1) ' ' then
      extendBack a b alo blo i (j - 1) (size + 1)
    else (i + 1, j, size)

/-- The forward extension loop of `find_longest_match`, driven by fuel
bounding the remaining room `ahi - (i + size)`. -/
def extendFwd (a b : List Char) (ahi bhi : Nat) :
    Nat → Nat → Nat → Nat → Nat × Nat × Nat
  | 0, i, j, size => (i, j, size)
  | f + 1, i, j, size =>
    if i + size < ahi ∧ j + size < bhi ∧
        a.getD (i + size) ' ' = b.getD (j + size) ' ' then
      extendFwd a b ahi bhi f i j (size + 1)
    else (i, j, size)

/-- `SequenceMatcher.find_longest_match` on `a[alo:ahi]` vs `b[blo:bhi]`
with precomputed `b2j` and an empty junk set. -/
def find_longest_match (a b : List Char) (b2j : Char → List Nat)
    (alo ahi blo bhi : Nat) : Nat × Nat × Nat :=
  let best := flmRows a b2j blo bhi (ahi - alo) alo (fun _ => 0) (alo, blo, 0)
  let best := extendBack a b alo blo best.1 best.2.1 best.2.2
  extendFwd a b ahi bhi ahi best.1 best.2.1 best.2.2

/-- `get_matching_blocks` as a divide-and-conquer traversal: the Python
queue visits exactly these regions and sorting the collected blocks
gives this in-order list (block sizes, hence `ratio`, are unaffected by
the final adjacent-block merge).  The fuel bounds recursion depth by the
total region size. -/
def matchingBlocksF (a b : List Char) (b2j : Char → List Nat) :
    Nat → Nat → Nat → Nat → Nat → List (Nat × Nat × Nat)
  | 0, _, _, _, _ => []
  | f + 1, alo, ahi, blo, bhi =>
    let x := find_longest_match a b b2j alo ahi blo bhi
    let i := x.1
    let j := x.2.1
    let k := x.2.2
    if k = 0 then []
    else
      (if alo < i ∧ blo < j then matchingBlocksF a b b2j f alo i blo j
       else [])
      ++ [(i, j, k)]
      ++ (if i + k < ahi ∧ j + k < bhi then
            matchingBlocksF a b b2j f (i + k) ahi (j + k) bhi
          else [])

/-- `SequenceMatcher.get_matching_blocks` over the whole sequences. -/
def get_matching_blocks (a b : List Char) (b2j : Char → List Nat) :
    List (Nat × Nat × Nat) :=
  matchingBlocksF a b b2j (a.length + b.length + 1) 0 a.length 0 b.length

/-- `difflib._calculate_ratio`, with float division idealised in `ℚ`. -/
def calculateRatio (numMatches total : Nat) : ℚ :=
  if total ≠ 0 then (2 * numMatches : ℚ) / total else 1

/-- Total size of the matching blocks of `a` vs `b` (with `b2j` built
from `b`, since `set_seq2(word)` makes the input word the second
sequence). -/
def matchTotal (a b : List Char) : Nat :=
  (get_matching_blocks a b (mkB2j b)).foldl (fun acc x => acc + x.2.2) 0

/-- `SequenceMatcher.ratio` for `set_seq1(x), set_seq2(word)`. -/
def pyRatio (a b : String) : ℚ :=
  calculateRatio (matchTotal a.data b.data) (a.length + b.length)

/-- One step of the `avail` loop of `SequenceMatcher.quick_ratio`:
`avail[elt] = numb - 1` where `numb` is the running counter or the full
`b` count, and a match is tallied when `numb > 0`. -/
def quickStep (fullbcount : Char → Int)
    (st : (Char → Option Int) × Nat) (c : Char) :
    (Char → Option Int) × Nat :=
  let numb := (st.1 c).elim (fullbcount c) (fun v => v)
  ((fun c' => if c' = c then some (numb - 1) else st.1 c'),
   if 0 < numb then st.2 + 1 else st.2)

/-- The multiset-intersection tally of `quick_ratio`. -/
def quickMatches (a b : String) : Nat :=
  (a.data.foldl (quickStep (fun c => (b.data.count c : Int)))
    ((fun _ => (none : Option Int)), (0 : Nat))).2

/-- `SequenceMatcher.quick_ratio`. -/
def pyQuickRatio (a b : String) : ℚ :=
  calculateRatio (quickMatches a b) (a.length + b.length)

/-- `SequenceMatcher.real_quick_ratio`. -/
def pyRealQuickRatio (a b : String) : ℚ :=
  calculateRatio (min a.length b.length) (a.length + b.length)

/-- The cutoff `0.3` that `resolve_snapshot_name` passes to
`get_close_matches`. -/
def gcmCutoff : ℚ := 3 / 10

/-- The three cutoff tests a candidate must pass in
`get_close_matches` (each an upper bound of the next, tested cheapest
first). -/
def passesCutoff (x word : String) : Prop :=
  gcmCutoff ≤ pyRealQuickRatio x word ∧ gcmCutoff ≤ pyQuickRatio x word ∧
    gcmCutoff ≤ pyRatio x word

instance (x word : String) : Decidable (passesCutoff x word) := by
  unfold passesCutoff
  infer_instance

/-- The scored candidate list built by `get_close_matches`, in
possibility order. -/
def gcmScored (word : String) (possibilities : List String) :
    List (ℚ × String) :=
  possibilities.filterMap (fun x =>
    if passesCutoff x word then some (pyRatio x word, x) else none)

/-- Python's tuple order on `(ratio, candidate)` scores. -/
def scoreLt (p q : ℚ × String) : Prop :=
  p.1 < q.1 ∨ (p.1 = q.1 ∧ p.2 < q.2)

instance (p q : ℚ × String) : Decidable (scoreLt p q) := by
  unfold scoreLt
  infer_instance

/-- Two-argument max on scores keeping the earlier argument on ties,
exactly as Python's `max` over an iterable does. -/
def scoreMax (p q : ℚ × String) : ℚ × String :=
  if scoreLt p q then q else p

/-- `difflib.get_close_matches(word, possibilities, n=1, cutoff=0.3)`:
`heapq.nlargest(1, result)` is `[max(result)]` when `result` is
nonempty. -/
def get_close_matches1 (word : String) (possibilities : List String) :
    List String :=
  match gcmScored word possibilities with
  | [] => []
  | p :: ps => [(ps.foldl scoreMax p).2]

/-- `resolve_snapshot_name`, with the store's name listing
(`get_available_snapshots()`) passed in as `available`. -/
def resolve_snapshot_name (name : String) (available : List String) :
    String :=
  match get_close_matches1 name available with
  | [] => name
  | m :: _ => m

/-! ## Support lemmas about the dict model -/

theorem find?_key_replace_self (m : List (String × String)) (k v : String)
    (hm : k ∈ m.map Prod.fst) :
    (m.map (fun kv => if kv.1 = k then (k, v) else kv)).find?
      (fun kv => kv.1 = k) = some (k, v) := by
  induction m with
  | nil => simp at hm
  | cons hd tl ih =>
    by_cases h : hd.1 = k
    · simp [List.find?, h]
    · have htl : k ∈ tl.map Prod.fst := by
        simp only [List.map_cons, List.mem_cons] at hm
        rcases hm with h1 | h1
        · exact absurd h1.symm h
        · exact h1
      simp [List.find?, h, ih htl]

theorem find?_key_replace_other (m : List (String × String))
    (k v k' : String) (h : k' ≠ k) :
    (m.map (fun kv => if kv.1 = k then (k, v) else kv)).find?
      (fun kv => kv.1 = k') = m.find? (fun kv => kv.1 = k') := by
  induction m with
  | nil => rfl
  | cons hd tl ih =>
    by_cases h1 : hd.1 = k
    · have hne1 : ¬((k : String) = k') := fun he => h he.symm
      have hne2 : ¬(hd.1 = k') := h1 ▸ hne1
      simp [List.find?, h1, hne1, hne2, ih]
    · by_cases h2 : hd.1 = k' <;> simp [List.find?, h1, h2, h, ih]

/-- Pointwise effect of a Python dict assignment on lookups. -/
theorem dictGet?_insert (m : List (String × String)) (k v k' : String) :
    dictGet? (dictInsert m k v) k'
      = if k' = k then some v else dictGet? m k' := by
  unfold dictInsert dictGet?
  by_cases hk : k' = k
  · subst hk
    by_cases hm : k' ∈ m.map Prod.fst
    · simp [hm, find?_key_replace_self m k' v hm]
    · have hnone : m.find? (fun kv => kv.1 = k') = none := by
        rw [List.find?_eq_none]
        intro kv hkv
        simp only [decide_eq_true_eq]
        intro heq
        exact hm (List.mem_map.mpr ⟨kv, hkv, heq⟩)
      simp [hm, List.find?_append, hnone, List.find?]
  · by_cases hm : k ∈ m.map Prod.fst
    · simp [hm, hk, find?_key_replace_other m k v k' hk]
    · have hne : ¬((k : String) = k') := fun he => hk he.symm
      have hsingle : ([(k, v)] : List (String × String)).find?
          (fun kv => kv.1 = k') = none := by
        simp [List.find?, hne]
      simp only [if_pos hm, if_neg hm, if_neg hk, List.find?_append, hsingle,
        Option.or_none]

/-- A key is present exactly when it occurs in the key listing. -/
theorem dictGet?_eq_none_iff (m : List (String × String)) (k : String) :
    dictGet? m k = none ↔ k ∉ m.map Prod.fst := by
  constructor
  · intro h hk
    rcases List.mem_map.mp hk with ⟨kv, hkv, hkey⟩
    cases hf : m.find? (fun kv => kv.1 = k) with
    | some kv' =>
      unfold dictGet? at h
      rw [hf] at h
      simp at h
    | none =>
      rw [List.find?_eq_none] at hf
      have hkv' := hf kv hkv
      simp only [decide_eq_true_eq] at hkv'
      exact hkv' hkey
  · intro h
    unfold dictGet?
    have hf : m.find? (fun kv => kv.1 = k) = none := by
      rw [List.find?_eq_none]
      intro kv hkv
      simp only [decide_eq_true_eq]
      intro hkey
      exact h (List.mem_map.mpr ⟨kv, hkv, hkey⟩)
    rw [hf]
    rfl

/-- Lookup after a left fold of dict assignments: the last assignment to
the key wins, and untouched keys fall through to the initial dict. -/
theorem dictGet?_foldl_insert {α : Type} (f g : α → String) (l : List α)
    (m : List (String × String)) (key : String) :
    dictGet? (l.foldl (fun acc x => dictInsert acc (f x) (g x)) m) key
      = (l.reverse.find? (fun x => f x = key)).elim (dictGet? m key)
          (fun x => some (g x)) := by
  induction l generalizing m with
  | nil => rfl
  | cons hd tl ih =>
    simp only [List.foldl_cons, List.reverse_cons, ih, List.find?_append]
    cases htl : tl.reverse.find? (fun x => decide (f x = key)) with
    | some x => rfl
    | none =>
      simp only [Option.none_or, Option.elim]
      rw [dictGet?_insert]
      by_cases h : f hd = key
      · simp [List.find?, h]
      · have h2 : ¬(key = f hd) := fun hx => h hx.symm
        simp [List.find?, h, h2, Option.elim]

/-! ## String helpers for the `field:key` namespacing -/

theorem string_eq_of_data (s t : String) (h : s.data = t.data) : s = t := by
  cases s
  cases t
  exact congrArg String.mk h

theorem string_ne_of_getD (s t : String) (i : Nat)
    (h : s.data.getD i ' ' ≠ t.data.getD i ' ') : s ≠ t :=
  fun he => h (by rw [he])

/-- A namespaced key differs from a fixed string that disagrees with the
name-space inside it. -/
theorem append_ne_of_head (pre x t : String) (i : Nat)
    (hi : i < pre.data.length)
    (hne : pre.data.getD i ' ' ≠ t.data.getD i ' ') : pre ++ x ≠ t := by
  apply string_ne_of_getD _ _ i
  rw [String.data_append, List.getD_append _ _ _ _ hi]
  exact hne

/-- Two keys in different name-spaces never coincide. -/
theorem append_ne_append_of_head (pre1 pre2 x y : String) (i : Nat)
    (hi1 : i < pre1.data.length) (hi2 : i < pre2.data.length)
    (hne : pre1.data.getD i ' ' ≠ pre2.data.getD i ' ') :
    pre1 ++ x ≠ pre2 ++ y := by
  apply string_ne_of_getD _ _ i
  rw [String.data_append, String.data_append,
    List.getD_append _ _ _ _ hi1, List.getD_append _ _ _ _ hi2]
  exact hne

theorem string_append_left_cancel (a x y : String) (h : a ++ x = a ++ y) :
    x = y := by
  apply string_eq_of_data
  have hd := congrArg String.data h
  rw [String.data_append, String.data_append] at hd
  exact List.append_cancel_left hd

/-! ## Lookup characterisation of `flatten_snapshot` -/

/-- Effect of the `packages` update group on lookups. -/
theorem dictGet?_foldl_pkg (l : List String) (m : List (String × String))
    (key : String) :
    dictGet? (l.foldl
        (fun m pkg => dictInsert m ("package:" ++ pkg) "installed") m) key
      = (l.reverse.find? (fun p => "package:" ++ p = key)).elim
          (dictGet? m key) (fun _ => some "installed") :=
  dictGet?_foldl_insert (fun p => "package:" ++ p) (fun _ => "installed")
    l m key

/-- Effect of the `env_vars` update group on lookups. -/
theorem dictGet?_foldl_env (l : List (String × String))
    (m : List (String × String)) (key : String) :
    dictGet? (l.foldl
        (fun m kv => dictInsert m ("env_vars:" ++ kv.1) kv.2) m) key
      = (l.reverse.find? (fun kv => "env_vars:" ++ kv.1 = key)).elim
          (dictGet? m key) (fun kv => some kv.2) :=
  dictGet?_foldl_insert (fun kv => "env_vars:" ++ kv.1) (fun kv => kv.2)
    l m key

/-- Master lookup lemma: a flattened lookup walks the insertion groups
from the last (`env_vars`) back to the first scalar fields. -/
theorem dictGet?_flatten (s : Snapshot) (key : String) :
    dictGet? (flatten_snapshot s) key
      = (s.env_vars.reverse.find?
            (fun kv => "env_vars:" ++ kv.1 = key)).elim
          (if key = "git_branch" then some s.git_branch
           else
             (s.packages.reverse.find?
                 (fun p => "package:" ++ p = key)).elim
               (if key = "virtualenv" then some s.virtualenv
                else if key = "python_version" then some s.python_version
                else if key = "timestamp" then some s.timestamp
                else none)
               (fun _ => some "installed"))
          (fun kv => some kv.2) := by
  show dictGet?
      (List.foldl (fun m kv => dictInsert m ("env_vars:" ++ kv.1) kv.2)
        (dictInsert
          (List.foldl
            (fun m pkg => dictInsert m ("package:" ++ pkg) "installed")
            (dictInsert
              (dictInsert (dictInsert [] "timestamp" s.timestamp)
                "python_version" s.python_version)
              "virtualenv" s.virtualenv)
            s.packages)
          "git_branch" s.git_branch)
        s.env_vars) key = _
  rw [dictGet?_foldl_env, dictGet?_insert, dictGet?_foldl_pkg,
    dictGet?_insert, dictGet?_insert, dictGet?_insert]
  rfl

/-- Lookup in a flattened record at a key outside both namespaces: only
the scalar fields can answer. -/
theorem dictGet?_flatten_scalar (s : Snapshot) (key : String)
    (henv : ∀ k : String, "env_vars:" ++ k ≠ key)
    (hpkg : ∀ p : String, "package:" ++ p ≠ key) :
    dictGet? (flatten_snapshot s) key
      = if key = "git_branch" then some s.git_branch
        else if key = "virtualenv" then some s.virtualenv
        else if key = "python_version" then some s.python_version
        else if key = "timestamp" then some s.timestamp
        else none := by
  rw [dictGet?_flatten]
  have he : s.env_vars.reverse.find?
      (fun kv => decide ("env_vars:" ++ kv.1 = key)) = none := by
    rw [List.find?_eq_none]
    intro kv _
    simpa using henv kv.1
  have hp : s.packages.reverse.find?
      (fun p => decide ("package:" ++ p = key)) = none := by
    rw [List.find?_eq_none]
    intro p _
    simpa using hpkg p
  rw [he, hp]
  simp only [Option.elim]

/-- Domain of a flattened record: exactly the scalar field names, the
namespaced package entries and the namespaced `env_vars` keys. -/
theorem dictGet?_flatten_isSome_iff (s : Snapshot) (key : String) :
    (dictGet? (flatten_snapshot s) key).isSome
      ↔ key = "timestamp" ∨ key = "python_version" ∨ key = "virtualenv"
        ∨ key = "git_branch" ∨ (∃ p ∈ s.packages, key = "package:" ++ p)
        ∨ (∃ kv ∈ s.env_vars, key = "env_vars:" ++ kv.1) := by
  rw [dictGet?_flatten]
  cases hfe : s.env_vars.reverse.find?
      (fun kv => decide ("env_vars:" ++ kv.1 = key)) with
  | some kv2 =>
    simp only [Option.elim, Option.isSome_some, true_iff]
    have h1 := List.find?_some hfe
    simp only [decide_eq_true_eq] at h1
    have h2 : kv2 ∈ s.env_vars :=
      List.mem_reverse.mp (List.mem_of_find?_eq_some hfe)
    exact Or.inr (Or.inr (Or.inr (Or.inr (Or.inr ⟨kv2, h2, h1.symm⟩))))
  | none =>
    simp only [Option.elim]
    rw [List.find?_eq_none] at hfe
    have henv : ∀ kv ∈ s.env_vars, ¬("env_vars:" ++ kv.1 = key) := by
      intro kv hkv
      have := hfe kv (List.mem_reverse.mpr hkv)
      simpa using this
    by_cases hgb : key = "git_branch"
    · simp only [if_pos hgb, Option.isSome_some, true_iff]
      exact Or.inr (Or.inr (Or.inr (Or.inl hgb)))
    · rw [if_neg hgb]
      cases hfp : s.packages.reverse.find?
          (fun p => decide ("package:" ++ p = key)) with
      | some q =>
        simp only [Option.elim, Option.isSome_some, true_iff]
        have h1 := List.find?_some hfp
        simp only [decide_eq_true_eq] at h1
        have h2 : q ∈ s.packages :=
          List.mem_reverse.mp (List.mem_of_find?_eq_some hfp)
        exact Or.inr (Or.inr (Or.inr (Or.inr (Or.inl ⟨q, h2, h1.symm⟩))))
      | none =>
        simp only [Option.elim]
        rw [List.find?_eq_none] at hfp
        have hpkg : ∀ p ∈ s.packages, ¬("package:" ++ p = key) := by
          intro p hp
          have := hfp p (List.mem_reverse.mpr hp)
          simpa using this
        by_cases hve : key = "virtualenv"
        · simp only [if_pos hve, Option.isSome_some, true_iff]
          exact Or.inr (Or.inr (Or.inl hve))
        · rw [if_neg hve]
          by_cases hpv : key = "python_version"
          · simp only [if_pos hpv, Option.isSome_some, true_iff]
            exact Or.inr (Or.inl hpv)
          · rw [if_neg hpv]
            by_cases hts : key = "timestamp"
            · simp only [if_pos hts, Option.isSome_some, true_iff]
              exact Or.inl hts
            · rw [if_neg hts]
              simp only [Option.isSome_none, Bool.false_eq_true, false_iff]
              intro hcon
              rcases hcon with h | h | h | h | ⟨p, hp, h⟩ | ⟨kv, hkv, h⟩
              · exact hts h
              · exact hpv h
              · exact hve h
              · exact hgb h
              · exact hpkg p hp h.symm
              · exact henv kv hkv h.symm

/-- C2: flattening a snapshot record produces, as a mapping: each
package entry `p` at key `"package:" ++ p` with value `"installed"`,
each `env_vars` inner key `k` at key `"env_vars:" ++ k` with the inner
value, each scalar field at its own field name with its value — and
nothing else. -/
theorem flatten_maps_fields_packages_env (s : Snapshot)
    (hnodup : (s.env_vars.map Prod.fst).Nodup) :
    dictGet? (flatten_snapshot s) "timestamp" = some s.timestamp
  ∧ dictGet? (flatten_snapshot s) "python_version" = some s.python_version
  ∧ dictGet? (flatten_snapshot s) "virtualenv" = some s.virtualenv
  ∧ dictGet? (flatten_snapshot s) "git_branch" = some s.git_branch
  ∧ (∀ p ∈ s.packages,
      dictGet? (flatten_snapshot s) ("package:" ++ p) = some "installed")
  ∧ (∀ kv ∈ s.env_vars,
      dictGet? (flatten_snapshot s) ("env_vars:" ++ kv.1) = some kv.2)
  ∧ (∀ key, (dictGet? (flatten_snapshot s) key).isSome
      ↔ key = "timestamp" ∨ key = "python_version" ∨ key = "virtualenv"
        ∨ key = "git_branch" ∨ (∃ p ∈ s.packages, key = "package:" ++ p)
        ∨ (∃ kv ∈ s.env_vars, key = "env_vars:" ++ kv.1)) := by
  refine ⟨?_, ?_, ?_, ?_, ?_, ?_, ?_⟩
  · rw [dictGet?_flatten_scalar s "timestamp"
      (fun k => append_ne_of_head "env_vars:" k "timestamp" 0
        (by decide) (by decide))
      (fun p => append_ne_of_head "package:" p "timestamp" 0
        (by decide) (by decide))]
    simp
  · rw [dictGet?_flatten_scalar s "python_version"
      (fun k => append_ne_of_head "env_vars:" k "python_version" 0
        (by decide) (by decide))
      (fun p => append_ne_of_head "package:" p "python_version" 1
        (by decide) (by decide))]
    simp
  · rw [dictGet?_flatten_scalar s "virtualenv"
      (fun k => append_ne_of_head "env_vars:" k "virtualenv" 0
        (by decide) (by decide))
      (fun p => append_ne_of_head "package:" p "virtualenv" 0
        (by decide) (by decide))]
    simp
  · rw [dictGet?_flatten_scalar s "git_branch"
      (fun k => append_ne_of_head "env_vars:" k "git_branch" 0
        (by decide) (by decide))
      (fun p => append_ne_of_head "package:" p "git_branch" 0
        (by decide) (by decide))]
    simp
  · intro p hp
    rw [dictGet?_flatten]
    have he : s.env_vars.reverse.find?
        (fun kv => decide ("env_vars:" ++ kv.1 = "package:" ++ p)) = none := by
      rw [List.find?_eq_none]
      intro kv _
      simpa using append_ne_append_of_head "env_vars:" "package:" kv.1 p 0
        (by decide) (by decide) (by decide)
    rw [he]
    simp only [Option.elim]
    rw [if_neg (append_ne_of_head "package:" p "git_branch" 0
      (by decide) (by decide))]
    cases hf : s.packages.reverse.find?
        (fun q => decide ("package:" ++ q = "package:" ++ p)) with
    | some q => simp [Option.elim]
    | none =>
      exfalso
      rw [List.find?_eq_none] at hf
      have := hf p (List.mem_reverse.mpr hp)
      simp at this
  · intro kv hkv
    rw [dictGet?_flatten]
    cases hf : s.env_vars.reverse.find?
        (fun kv2 => decide ("env_vars:" ++ kv2.1 = "env_vars:" ++ kv.1)) with
    | none =>
      exfalso
      rw [List.find?_eq_none] at hf
      have := hf kv (List.mem_reverse.mpr hkv)
      simp at this
    | some kv2 =>
      simp only [Option.elim]
      have h1 := List.find?_some hf
      simp only [decide_eq_true_eq] at h1
      have hk12 : kv2.1 = kv.1 := string_append_left_cancel _ _ _ h1
      have h2 : kv2 ∈ s.env_vars :=
        List.mem_reverse.mp (List.mem_of_find?_eq_some hf)
      have heq : kv2 = kv := List.inj_on_of_nodup_map hnodup h2 hkv hk12
      rw [heq]
  · intro key
    exact dictGet?_flatten_isSome_iff s key

/-- A sample record used by the witness theorems. -/
def sampleSnap : Snapshot :=
  { timestamp := "2024-01-01T00:00:00",
    python_version := "3.9.1",
    virtualenv := "none",
    packages := ["x==1"],
    git_branch := "main",
    env_vars := [("PATH", "/usr/bin")] }

/-- Witness for C2 at a concrete record. -/
theorem flatten_maps_fields_packages_env_witness :
    dictGet? (flatten_snapshot sampleSnap) ("package:" ++ "x==1")
      = some "installed" :=
  (flatten_maps_fields_packages_env sampleSnap (by decide)).2.2.2.2.1
    "x==1" (by simp [sampleSnap])


/-- C6: the `field:key` namespacing of `flatten_snapshot` is injective —
no two distinct key sources (scalar fields, package entries, `env_vars`
inner keys) collapse to the same flattened key — and every key of a
flattened record arises from such a source. -/
theorem flatten_namespacing_injective :
    Function.Injective flatKey
  ∧ ∀ (s : Snapshot) (kv : String × String), kv ∈ flatten_snapshot s →
      ∃ d : FlatField, flatKey d = kv.1 := by
  constructor
  · intro d1 d2 h
    cases d1 <;> cases d2 <;> simp only [flatKey] at h
    all_goals first
    | rfl
    | (exact absurd h (by decide))
    | (exact congrArg FlatField.packageF
        (string_append_left_cancel _ _ _ h))
    | (exact congrArg FlatField.envVarF
        (string_append_left_cancel _ _ _ h))
    | (exact absurd h (append_ne_of_head _ _ _ 0 (by decide) (by decide)))
    | (exact absurd h.symm
        (append_ne_of_head _ _ _ 0 (by decide) (by decide)))
    | (exact absurd h (append_ne_of_head _ _ _ 1 (by decide) (by decide)))
    | (exact absurd h.symm
        (append_ne_of_head _ _ _ 1 (by decide) (by decide)))
    | (exact absurd h (append_ne_append_of_head _ _ _ _ 0
        (by decide) (by decide) (by decide)))
  · intro s kv hkv
    have hsome : (dictGet? (flatten_snapshot s) kv.1).isSome := by
      cases hg : dictGet? (flatten_snapshot s) kv.1 with
      | some v => rfl
      | none =>
        exact absurd (List.mem_map.mpr ⟨kv, hkv, rfl⟩)
          ((dictGet?_eq_none_iff _ _).mp hg)
    rcases (dictGet?_flatten_isSome_iff s kv.1).mp hsome with
      h | h | h | h | ⟨p, _, h⟩ | ⟨kv2, _, h⟩
    · exact ⟨.timestampF, h.symm⟩
    · exact ⟨.pythonVersionF, h.symm⟩
    · exact ⟨.virtualenvF, h.symm⟩
    · exact ⟨.gitBranchF, h.symm⟩
    · exact ⟨.packageF p, h.symm⟩
    · exact ⟨.envVarF kv2.1, h.symm⟩

/-- Witness for C6 at a concrete flattened entry. -/
theorem flatten_namespacing_injective_witness :
    FlatField.packageF "x==1" = FlatField.packageF "x==1"
  ∧ ∃ d : FlatField, flatKey d = "package:x==1" := by
  constructor
  · exact flatten_namespacing_injective.1
      (show flatKey (FlatField.packageF "x==1")
          = flatKey (FlatField.packageF "x==1") from rfl)
  · exact flatten_namespacing_injective.2 sampleSnap
      ("package:x==1", "installed") (by decide)

/-- C3: the collector absorbs `CalledProcessError` (non-zero exit) from
both tools — empty package list, `"none"` branch sentinel — but an
unavailable `git` executable raises `FileNotFoundError`, which
`except subprocess.CalledProcessError` does not catch, so the capture
aborts instead of completing with the sentinel. -/
theorem collector_git_unavailable_aborts_capture :
    get_installed_packages .calledProcessError = .ok []
  ∧ get_git_branch .calledProcessError = .ok "none"
  ∧ get_git_branch .fileNotFoundError = .error ()
  ∧ (∀ ts pv ve env,
      collectSnapshot ts pv ve (.output "") .fileNotFoundError env
        = .error ())
  ∧ (∀ ts pv ve env,
      collectSnapshot ts pv ve .calledProcessError .calledProcessError env
        = .ok { timestamp := ts, python_version := pv, virtualenv := ve,
                packages := [], git_branch := "none", env_vars := env }) :=
  ⟨rfl, rfl, rfl, fun _ _ _ _ => rfl, fun _ _ _ _ => rfl⟩

/-- C9: `restore` without the `--env-vars` flag leaves the store
untouched, prints exactly the advisory line, and prints no `export`
line. -/
theorem restore_without_flag_no_write_no_export (store : Store)
    (names : List String) (resolve : String → List String → String)
    (name : String) :
    (restore_dispatch false store names resolve name).1 = store
  ∧ (restore_dispatch false store names resolve name).2
      = ["⚠️ Add --env-vars to restore environment variables"]
  ∧ ∀ line ∈ (restore_dispatch false store names resolve name).2,
      line.startsWith "export " = false := by
  refine ⟨rfl, rfl, ?_⟩
  intro line hline
  have : line = "⚠️ Add --env-vars to restore environment variables" := by
    simpa [restore_dispatch] using hline
  rw [this]
  decide

/-! ## Viewer / Reporter truncation -/

theorem env_line_ne_marker (k v : String) :
    "   " ++ k ++ " = " ++ v ≠ truncationMarker := by
  intro h
  have hd := congrArg String.data h
  simp only [String.data_append] at hd
  have hmem : '=' ∈ (("   ".data ++ k.data) ++ " = ".data) ++ v.data := by
    refine List.mem_append.mpr (Or.inl ?_)
    refine List.mem_append.mpr (Or.inr ?_)
    decide
  rw [hd] at hmem
  exact (by decide : ¬('=' ∈ truncationMarker.data)) hmem

theorem marker_not_in_view_front (name : String) (s : Snapshot) :
    truncationMarker ∉
      (["\n📦 Snapshot: " ++ name,
        "🕒 Timestamp: " ++ s.timestamp,
        "🐍 Python: " ++ s.python_version,
        "📁 Virtualenv: " ++ s.virtualenv,
        "🌿 Git Branch: " ++ s.git_branch,
        "🔑 Env Vars:"]
      ++ s.env_vars.map (fun kv => "   " ++ kv.1 ++ " = " ++ kv.2)
      ++ ["📦 Packages: " ++ toString s.packages.length ++ " installed"]
      ++ (s.packages.take 10).map (fun pkg => "   - " ++ pkg)) := by
  intro hmem
  rcases List.mem_append.mp hmem with h9 | hpkg
  rotate_left
  · rcases List.mem_map.mp hpkg with ⟨p, _, h⟩
    exact append_ne_of_head "   - " p truncationMarker 3
      (by decide) (by decide) h
  rcases List.mem_append.mp h9 with h8 | hcnt
  rotate_left
  · have h := List.mem_singleton.mp hcnt
    rw [String.append_assoc] at h
    exact append_ne_of_head "📦 Packages: "
      (toString s.packages.length ++ " installed") truncationMarker 0
      (by decide) (by decide) h.symm
  rcases List.mem_append.mp h8 with hhdr | henv
  rotate_left
  · rcases List.mem_map.mp henv with ⟨kv, _, h⟩
    exact env_line_ne_marker kv.1 kv.2 h
  simp only [List.mem_cons, List.not_mem_nil, or_false] at hhdr
  rcases hhdr with h | h | h | h | h | h
  · exact append_ne_of_head "\n📦 Snapshot: " name truncationMarker 0
      (by decide) (by decide) h.symm
  · exact append_ne_of_head "🕒 Timestamp: " s.timestamp truncationMarker 0
      (by decide) (by decide) h.symm
  · exact append_ne_of_head "🐍 Python: " s.python_version truncationMarker
      0 (by decide) (by decide) h.symm
  · exact append_ne_of_head "📁 Virtualenv: " s.virtualenv truncationMarker
      0 (by decide) (by decide) h.symm
  · exact append_ne_of_head "🌿 Git Branch: " s.git_branch truncationMarker
      0 (by decide) (by decide) h.symm
  · exact (by decide : "🔑 Env Vars:" ≠ truncationMarker) h.symm

theorem marker_not_in_report_front (name : String) (s : Snapshot) :
    truncationMarker ∉
      (["\n📋 Summary Report for '" ++ name ++ "'",
        "----------------------------",
        "📅 Timestamp       : " ++ s.timestamp,
        "🐍 Python Version  : " ++ s.python_version,
        "🌿 Git Branch      : " ++ s.git_branch,
        "📁 Virtualenv Path : " ++ s.virtualenv,
        "🔑 Env Vars Count  : " ++ toString s.env_vars.length,
        "📦 Package Count   : " ++ toString s.packages.length,
        "📦 Top Packages    :"]
      ++ (s.packages.take 10).map (fun pkg => "   - " ++ pkg)) := by
  intro hmem
  rcases List.mem_append.mp hmem with hhdr | hpkg
  rotate_left
  · rcases List.mem_map.mp hpkg with ⟨p, _, h⟩
    exact append_ne_of_head "   - " p truncationMarker 3
      (by decide) (by decide) h
  simp only [List.mem_cons, List.not_mem_nil, or_false] at hhdr
  rcases hhdr with h | h | h | h | h | h | h | h | h
  · rw [String.append_assoc] at h
    exact append_ne_of_head "\n📋 Summary Report for '" (name ++ "'")
      truncationMarker 0 (by decide) (by decide) h.symm
  · exact (by decide : "----------------------------" ≠ truncationMarker)
      h.symm
  · exact append_ne_of_head "📅 Timestamp       : " s.timestamp
      truncationMarker 0 (by decide) (by decide) h.symm
  · exact append_ne_of_head "🐍 Python Version  : " s.python_version
      truncationMarker 0 (by decide) (by decide) h.symm
  · exact append_ne_of_head "🌿 Git Branch      : " s.git_branch
      truncationMarker 0 (by decide) (by decide) h.symm
  · exact append_ne_of_head "📁 Virtualenv Path : " s.virtualenv
      truncationMarker 0 (by decide) (by decide) h.symm
  · exact append_ne_of_head "🔑 Env Vars Count  : "
      (toString s.env_vars.length) truncationMarker 0
      (by decide) (by decide) h.symm
  · exact append_ne_of_head "📦 Package Count   : "
      (toString s.packages.length) truncationMarker 0
      (by decide) (by decide) h.symm
  · exact (by decide : "📦 Top Packages    :" ≠ truncationMarker) h.symm

/-- C8: both the Viewer and the Reporter list exactly the first
`min 10 (length)` package entries, in order, and emit the truncation
marker precisely when more than 10 packages are stored. -/
theorem viewer_reporter_truncate_at_ten (name : String) (s : Snapshot) :
    (∃ front, view_snapshot_lines name s
        = front ++ (s.packages.take 10).map (fun pkg => "   - " ++ pkg)
          ++ (if 10 < s.packages.length then [truncationMarker] else []))
  ∧ (∃ front, report_snapshot_lines name s
        = front ++ (s.packages.take 10).map (fun pkg => "   - " ++ pkg)
          ++ (if 10 < s.packages.length then [truncationMarker] else []))
  ∧ (s.packages.take 10).length ≤ 10
  ∧ (truncationMarker ∈ view_snapshot_lines name s
      ↔ 10 < s.packages.length)
  ∧ (truncationMarker ∈ report_snapshot_lines name s
      ↔ 10 < s.packages.length) := by
  refine ⟨?_, ?_, ?_, ?_, ?_⟩
  · refine ⟨["\n📦 Snapshot: " ++ name,
      "🕒 Timestamp: " ++ s.timestamp,
      "🐍 Python: " ++ s.python_version,
      "📁 Virtualenv: " ++ s.virtualenv,
      "🌿 Git Branch: " ++ s.git_branch,
      "🔑 Env Vars:"]
      ++ s.env_vars.map (fun kv => "   " ++ kv.1 ++ " = " ++ kv.2)
      ++ ["📦 Packages: " ++ toString s.packages.length ++ " installed"],
      ?_⟩
    simp [view_snapshot_lines, truncationMarker]
  · refine ⟨["\n📋 Summary Report for '" ++ name ++ "'",
      "----------------------------",
      "📅 Timestamp       : " ++ s.timestamp,
      "🐍 Python Version  : " ++ s.python_version,
      "🌿 Git Branch      : " ++ s.git_branch,
      "📁 Virtualenv Path : " ++ s.virtualenv,
      "🔑 Env Vars Count  : " ++ toString s.env_vars.length,
      "📦 Package Count   : " ++ toString s.packages.length,
      "📦 Top Packages    :"], ?_⟩
    simp [report_snapshot_lines, truncationMarker]
  · exact List.length_take_le 10 s.packages
  · constructor
    · intro hmem
      by_contra hlen
      unfold view_snapshot_lines at hmem
      rw [if_neg hlen, List.append_nil] at hmem
      exact marker_not_in_view_front name s (by simpa using hmem)
    · intro hlen
      unfold view_snapshot_lines
      rw [if_pos hlen]
      refine List.mem_append.mpr (Or.inr ?_)
      exact List.mem_singleton.mpr rfl
  · constructor
    · intro hmem
      by_contra hlen
      unfold report_snapshot_lines at hmem
      rw [if_neg hlen, List.append_nil] at hmem
      exact marker_not_in_report_front name s (by simpa using hmem)
    · intro hlen
      unfold report_snapshot_lines
      rw [if_pos hlen]
      refine List.mem_append.mpr (Or.inr ?_)
      exact List.mem_singleton.mpr rfl

/-- A record with eleven packages, for the C8 witness. -/
def bigSnap : Snapshot :=
  { timestamp := "t", python_version := "3", virtualenv := "none",
    packages := ["p1", "p2", "p3", "p4", "p5", "p6", "p7", "p8", "p9",
      "p10", "p11"],
    git_branch := "main", env_vars := [] }

/-- Witness for C8: with eleven packages the marker is emitted. -/
theorem viewer_reporter_truncate_at_ten_witness :
    truncationMarker ∈ view_snapshot_lines "big" bigSnap :=
  (viewer_reporter_truncate_at_ten "big" bigSnap).2.2.2.1.mpr
    (by decide)

/-! ## Order facts about the Python string comparison -/

theorem charListLe_total :
    ∀ l1 l2 : List Char, charListLe l1 l2 = true ∨ charListLe l2 l1 = true
  | [], l2 => Or.inl rfl
  | l1 :: ls1, [] => Or.inr rfl
  | c :: cs, d :: ds => by
    by_cases hcd : c = d
    · subst hcd
      rcases charListLe_total cs ds with h | h
      · exact Or.inl (by simpa [charListLe] using h)
      · exact Or.inr (by simpa [charListLe] using h)
    · rcases lt_or_gt_of_ne hcd with h | h
      · exact Or.inl (by simp [charListLe, hcd, h])
      · exact Or.inr (by simp [charListLe, Ne.symm hcd, h])

theorem charListLe_trans :
    ∀ l1 l2 l3 : List Char, charListLe l1 l2 = true →
      charListLe l2 l3 = true → charListLe l1 l3 = true
  | [], _, l3, _, _ => rfl
  | c :: cs, [], _, h12, _ => by simp [charListLe] at h12
  | _ :: _, _ :: _, [], _, h23 => by simp [charListLe] at h23
  | c :: cs, d :: ds, e :: es, h12, h23 => by
    by_cases hcd : c = d
    · subst hcd
      by_cases hde : c = e
      · subst hde
        simp only [charListLe, if_pos rfl] at h12 h23 ⊢
        exact charListLe_trans cs ds es h12 h23
      · simp only [charListLe, if_pos rfl] at h12
        simpa [charListLe, hde] using h23
    · by_cases hde : d = e
      · subst hde
        simpa [charListLe, hcd] using h12
      · simp only [charListLe, if_neg hcd, decide_eq_true_eq] at h12
        simp only [charListLe, if_neg hde, decide_eq_true_eq] at h23
        have hce : c < e := lt_trans h12 h23
        simp [charListLe, ne_of_lt hce, hce]

theorem charListLe_antisymm :
    ∀ l1 l2 : List Char, charListLe l1 l2 = true →
      charListLe l2 l1 = true → l1 = l2
  | [], [], _, _ => rfl
  | [], _ :: _, _, h21 => by simp [charListLe] at h21
  | _ :: _, [], h12, _ => by simp [charListLe] at h12
  | c :: cs, d :: ds, h12, h21 => by
    by_cases hcd : c = d
    · subst hcd
      simp only [charListLe, if_pos rfl] at h12 h21
      rw [charListLe_antisymm cs ds h12 h21]
    · simp only [charListLe, if_neg hcd, decide_eq_true_eq] at h12
      simp only [charListLe, if_neg (Ne.symm hcd), decide_eq_true_eq] at h21
      exact absurd h21 (lt_asymm h12)

instance : IsTotal String (fun a b => pyStrLe a b = true) :=
  ⟨fun a b => charListLe_total a.data b.data⟩

instance : IsTrans String (fun a b => pyStrLe a b = true) :=
  ⟨fun a b c => charListLe_trans a.data b.data c.data⟩

instance : IsAntisymm String (fun a b => pyStrLe a b = true) :=
  ⟨fun a b h1 h2 =>
    string_eq_of_data a b (charListLe_antisymm a.data b.data h1 h2)⟩

/-! ## Comparator -/

theorem mem_pySortedDedup (l : List String) (x : String) :
    x ∈ pySortedDedup l ↔ x ∈ l := by
  unfold pySortedDedup
  rw [List.mem_insertionSort, List.mem_dedup]

/-- The sorted key union of `compare_snapshots` is symmetric in its two
inputs. -/
theorem pySortedDedup_append_comm (l1 l2 : List String) :
    pySortedDedup (l1 ++ l2) = pySortedDedup (l2 ++ l1) := by
  unfold pySortedDedup
  exact List.eq_of_perm_of_sorted
    (((List.perm_insertionSort _ _).trans
      ((List.perm_append_comm).dedup)).trans
      (List.perm_insertionSort _ _).symm)
    (List.sorted_insertionSort _ _)
    (List.sorted_insertionSort _ _)

/-- C1 (amended): the difference list is empty iff the two flattened
mappings agree at every key once an absent key is read as the sentinel
`"<missing>"`; a key present in both with equal values is never
emitted; emitted entries carry exactly the two sentinel-defaulted
values, and they differ. -/
theorem compare_empty_iff_sentinel_agreement (s1 s2 : Snapshot) :
    (compare_snapshots s1 s2 = []
      ↔ ∀ key, dictGetD (flatten_snapshot s1) key missingSentinel
          = dictGetD (flatten_snapshot s2) key missingSentinel)
  ∧ (∀ key v, dictGet? (flatten_snapshot s1) key = some v →
      dictGet? (flatten_snapshot s2) key = some v →
      ∀ v1 v2, (key, v1, v2) ∉ compare_snapshots s1 s2)
  ∧ (∀ key v1 v2, (key, v1, v2) ∈ compare_snapshots s1 s2 →
      v1 = dictGetD (flatten_snapshot s1) key missingSentinel
      ∧ v2 = dictGetD (flatten_snapshot s2) key missingSentinel
      ∧ v1 ≠ v2) := by
  refine ⟨⟨?_, ?_⟩, ?_, ?_⟩
  · intro h key
    unfold compare_snapshots at h
    rw [List.filterMap_eq_nil_iff] at h
    by_cases hk : key ∈ pySortedDedup ((flatten_snapshot s1).map Prod.fst
        ++ (flatten_snapshot s2).map Prod.fst)
    · have hnone := h key hk
      by_contra hne
      rw [if_pos hne] at hnone
      exact Option.noConfusion hnone
    · rw [mem_pySortedDedup, List.mem_append] at hk
      push_neg at hk
      have h1 := (dictGet?_eq_none_iff (flatten_snapshot s1) key).mpr hk.1
      have h2 := (dictGet?_eq_none_iff (flatten_snapshot s2) key).mpr hk.2
      unfold dictGetD
      rw [h1, h2]
  · intro hall
    unfold compare_snapshots
    rw [List.filterMap_eq_nil_iff]
    intro key _
    rw [if_neg]
    intro hne
    exact hne (hall key)
  · intro key v hv1 hv2 v1 v2 hmem
    unfold compare_snapshots at hmem
    rcases List.mem_filterMap.mp hmem with ⟨key2, _, hf⟩
    by_cases hne : dictGetD (flatten_snapshot s1) key2 missingSentinel
        ≠ dictGetD (flatten_snapshot s2) key2 missingSentinel
    · rw [if_pos hne] at hf
      have h := Option.some.inj hf
      simp only [Prod.ext_iff] at h
      obtain ⟨hkey, _, _⟩ := h
      subst hkey
      apply hne
      unfold dictGetD
      rw [hv1, hv2]
    · rw [if_neg hne] at hf
      exact Option.noConfusion hf
  · intro key v1 v2 hmem
    unfold compare_snapshots at hmem
    rcases List.mem_filterMap.mp hmem with ⟨key2, _, hf⟩
    by_cases hne : dictGetD (flatten_snapshot s1) key2 missingSentinel
        ≠ dictGetD (flatten_snapshot s2) key2 missingSentinel
    · rw [if_pos hne] at hf
      have h := Option.some.inj hf
      simp only [Prod.ext_iff] at h
      obtain ⟨hkey, hv1, hv2⟩ := h
      subst hkey
      subst hv1
      subst hv2
      exact ⟨rfl, rfl, hne⟩
    · rw [if_neg hne] at hf
      exact Option.noConfusion hf

/-- A record whose env var literally stores the sentinel value. -/
def sentinelSnapA : Snapshot :=
  { timestamp := "t", python_version := "3", virtualenv := "none",
    packages := [], git_branch := "main",
    env_vars := [("FOO", "<missing>")] }

/-- `sentinelSnapA` with the env var removed. -/
def sentinelSnapB : Snapshot :=
  { timestamp := "t", python_version := "3", virtualenv := "none",
    packages := [], git_branch := "main", env_vars := [] }

/-- Counterexample to C1 as stated: the difference list is empty while
the two flattened mappings are not identical — `"env_vars:FOO"` is
present (with value `"<missing>"`) in one and absent from the other. -/
theorem compare_empty_iff_counterexample :
    compare_snapshots sentinelSnapA sentinelSnapB = []
  ∧ dictGet? (flatten_snapshot sentinelSnapA) "env_vars:FOO"
      = some "<missing>"
  ∧ dictGet? (flatten_snapshot sentinelSnapB) "env_vars:FOO" = none := by
  refine ⟨?_, ?_, ?_⟩ <;> decide

/-- Witness for the amended C1 at a concrete pair of records. -/
theorem compare_empty_iff_sentinel_agreement_witness :
    compare_snapshots sampleSnap sampleSnap = []
  ∧ ("timestamp", "a", "b") ∉ compare_snapshots sampleSnap sampleSnap := by
  constructor
  · exact (compare_empty_iff_sentinel_agreement sampleSnap sampleSnap).1.mpr
      (fun key => rfl)
  · exact (compare_empty_iff_sentinel_agreement sampleSnap sampleSnap).2.1
      "timestamp" sampleSnap.timestamp (by decide) (by decide) "a" "b"

/-- Snapshot "a" of the end-to-end scenario. -/
def e2eSnapA : Snapshot :=
  { timestamp := "t", python_version := "3.9", virtualenv := "none",
    packages := ["x==1", "y==2"], git_branch := "main",
    env_vars := [("FOO", "bar")] }

/-- Snapshot "b" of the end-to-end scenario: same capture except
`y==3` instead of `y==2` and `FOO=baz` instead of `FOO=bar`. -/
def e2eSnapB : Snapshot :=
  { timestamp := "t", python_version := "3.9", virtualenv := "none",
    packages := ["x==1", "y==3"], git_branch := "main",
    env_vars := [("FOO", "baz")] }

/-- C4: diffing the two scenario snapshots reports exactly the entries
the claim enumerates — the two package strings as distinct keys, each
one-sided against `"<missing>"`, and `env_vars:FOO` with `bar` vs
`baz` — in sorted key order, and nothing else. -/
theorem diff_scenario_reports_enumerated_entries :
    compare_snapshots e2eSnapA e2eSnapB
      = [("env_vars:FOO", "bar", "baz"),
         ("package:y==2", "installed", "<missing>"),
         ("package:y==3", "<missing>", "installed")] := by
  decide

/-- C5: swapping the two records swaps the two value components of
every difference entry and leaves the key sequence unchanged. -/
theorem compare_symmetric_swap (s1 s2 : Snapshot) :
    compare_snapshots s2 s1
      = (compare_snapshots s1 s2).map (fun e => (e.1, e.2.2, e.2.1)) := by
  unfold compare_snapshots
  rw [pySortedDedup_append_comm, List.map_filterMap]
  refine congrArg (fun f => List.filterMap f
    (pySortedDedup ((flatten_snapshot s1).map Prod.fst
      ++ (flatten_snapshot s2).map Prod.fst))) (funext fun key => ?_)
  by_cases h : dictGetD (flatten_snapshot s1) key missingSentinel
      = dictGetD (flatten_snapshot s2) key missingSentinel
  · rw [if_neg (fun hne => hne h.symm), if_neg (fun hne => hne h)]
    rfl
  · rw [if_pos (fun he => h he.symm), if_pos h]
    rfl

/-- Witness for C9 at a concrete store and name. -/
theorem restore_without_flag_no_write_no_export_witness :
    (restore_dispatch false ([] : Store) [] (fun n _ => n) "a").1
        = ([] : Store)
  ∧ ("⚠️ Add --env-vars to restore environment variables".startsWith
        "export " = false) := by
  constructor
  · exact (restore_without_flag_no_write_no_export [] [] (fun n _ => n)
      "a").1
  · exact (restore_without_flag_no_write_no_export [] [] (fun n _ => n)
      "a").2.2 "⚠️ Add --env-vars to restore environment variables"
      (by simp [restore_dispatch])

/-! ## Name resolution: `get_close_matches` with `n=1` -/

theorem scoreLt_irrefl (p : ℚ × String) : ¬ scoreLt p p := by
  rintro (h | ⟨_, h⟩) <;> exact lt_irrefl _ h

theorem scoreLt_trans {p q r : ℚ × String} (h1 : scoreLt p q)
    (h2 : scoreLt q r) : scoreLt p r := by
  rcases h1 with h1 | ⟨e1, h1⟩ <;> rcases h2 with h2 | ⟨e2, h2⟩
  · exact Or.inl (lt_trans h1 h2)
  · exact Or.inl (e2 ▸ h1)
  · exact Or.inl (e1 ▸ h2)
  · exact Or.inr ⟨e1.trans e2, lt_trans h1 h2⟩

theorem scoreLt_of_lt_of_not_lt {m q p : ℚ × String} (h1 : scoreLt m q)
    (h2 : ¬ scoreLt p q) : scoreLt m p := by
  unfold scoreLt at *
  push_neg at h2
  obtain ⟨h2a, h2b⟩ := h2
  rcases h1 with h1 | ⟨e1, h1⟩
  · exact Or.inl (lt_of_lt_of_le h1 h2a)
  · rcases lt_or_eq_of_le h2a with h | h
    · exact Or.inl (e1 ▸ h)
    · refine Or.inr ⟨e1.trans h, ?_⟩
      exact lt_of_lt_of_le h1 (h2b h.symm)

theorem foldl_scoreMax_mem :
    ∀ (ps : List (ℚ × String)) (p : ℚ × String),
      ps.foldl scoreMax p ∈ p :: ps
  | [], p => List.mem_singleton.mpr rfl
  | q :: qs, p => by
    have h := foldl_scoreMax_mem qs (scoreMax p q)
    simp only [List.foldl_cons]
    rcases List.mem_cons.mp h with h | h
    · rw [h]
      unfold scoreMax
      by_cases hlt : scoreLt p q
      · rw [if_pos hlt]
        exact List.mem_cons_of_mem _ (List.mem_cons_self _ _)
      · rw [if_neg hlt]
        exact List.mem_cons_self _ _
    · exact List.mem_cons_of_mem _ (List.mem_cons_of_mem _ h)

theorem foldl_scoreMax_not_lt :
    ∀ (ps : List (ℚ × String)) (p q : ℚ × String), q ∈ p :: ps →
      ¬ scoreLt (ps.foldl scoreMax p) q
  | [], p, q, hq => by
    have : q = p := by simpa using hq
    rw [this]
    exact scoreLt_irrefl p
  | r :: rs, p, q, hq => by
    simp only [List.foldl_cons]
    rcases List.mem_cons.mp hq with hq | hq
    · subst hq
      by_cases hlt : scoreLt q r
      · rw [show scoreMax q r = r from if_pos hlt]
        intro hMq
        exact foldl_scoreMax_not_lt rs r r (List.mem_cons_self _ _)
          (scoreLt_trans hMq hlt)
      · rw [show scoreMax q r = q from if_neg hlt]
        exact foldl_scoreMax_not_lt rs q q (List.mem_cons_self _ _)
    · rcases List.mem_cons.mp hq with hq | hq
      · subst hq
        by_cases hlt : scoreLt p q
        · rw [show scoreMax p q = q from if_pos hlt]
          exact foldl_scoreMax_not_lt rs q q (List.mem_cons_self _ _)
        · rw [show scoreMax p q = p from if_neg hlt]
          intro hMq
          exact foldl_scoreMax_not_lt rs p p (List.mem_cons_self _ _)
            (scoreLt_of_lt_of_not_lt hMq hlt)
      · exact foldl_scoreMax_not_lt rs (scoreMax p r) q
          (List.mem_cons_of_mem _ hq)

theorem mem_gcmScored (word : String) (l : List String) (q : ℚ × String)
    (h : q ∈ gcmScored word l) :
    q.2 ∈ l ∧ passesCutoff q.2 word ∧ q.1 = pyRatio q.2 word := by
  unfold gcmScored at h
  rcases List.mem_filterMap.mp h with ⟨x, hx, hfx⟩
  by_cases hp : passesCutoff x word
  · rw [if_pos hp] at hfx
    obtain rfl := (Option.some.inj hfx).symm
    exact ⟨hx, hp, rfl⟩
  · rw [if_neg hp] at hfx
    exact absurd hfx (by simp)

theorem gcmScored_mem (word : String) (l : List String) (c : String)
    (hc : c ∈ l) (hp : passesCutoff c word) :
    (pyRatio c word, c) ∈ gcmScored word l := by
  unfold gcmScored
  exact List.mem_filterMap.mpr ⟨c, hc, by rw [if_pos hp]⟩

/-- Counterexample to C7 as stated: against the single stored name
`"abcuvwxyz0"`, the input `"abcdefghij"` has similarity exactly `0.3`
— it does not exceed the threshold — yet `resolve_snapshot_name`
returns the stored name, because `get_close_matches` keeps candidates
with ratio `≥ cutoff`, not only strictly above it. -/
theorem resolve_threshold_boundary_counterexample :
    pyRatio "abcuvwxyz0" "abcdefghij" = gcmCutoff
  ∧ ¬ (gcmCutoff < pyRatio "abcuvwxyz0" "abcdefghij")
  ∧ resolve_snapshot_name "abcdefghij" ["abcuvwxyz0"] = "abcuvwxyz0"
  ∧ ("abcuvwxyz0" : String) ≠ "abcdefghij" := by
  have hr : pyRatio "abcuvwxyz0" "abcdefghij" = gcmCutoff := by
    unfold pyRatio
    rw [show matchTotal "abcuvwxyz0".data "abcdefghij".data = 3 from
        by decide,
      show "abcuvwxyz0".length = 10 from rfl,
      show "abcdefghij".length = 10 from rfl]
    norm_num [calculateRatio, gcmCutoff]
  refine ⟨hr, by rw [hr]; exact lt_irrefl _, ?_, by decide⟩
  have hpass : passesCutoff "abcuvwxyz0" "abcdefghij" := by
    refine ⟨?_, ?_, ?_⟩
    · unfold pyRealQuickRatio
      rw [show "abcuvwxyz0".length = 10 from rfl,
        show "abcdefghij".length = 10 from rfl]
      norm_num [calculateRatio, gcmCutoff]
    · unfold pyQuickRatio
      rw [show quickMatches "abcuvwxyz0" "abcdefghij" = 3 from by decide,
        show "abcuvwxyz0".length = 10 from rfl,
        show "abcdefghij".length = 10 from rfl]
      norm_num [calculateRatio, gcmCutoff]
    · rw [hr]
  unfold resolve_snapshot_name get_close_matches1 gcmScored
  rw [List.filterMap_cons, if_pos hpass]
  rfl

/-- C7 (amended): resolution returns the input unchanged when the store
is empty, or when every stored name has ratio below the `0.3` cutoff;
when some candidate passes the cutoff tests (the code keeps candidates
whose similarity is `≥` the cutoff, not only strictly above it), the
result is the stored name with the largest `(ratio, name)` score. -/
theorem resolve_best_match_or_passthrough (name : String)
    (available : List String) :
    (available = [] → resolve_snapshot_name name available = name)
  ∧ ((∀ c ∈ available, pyRatio c name < gcmCutoff) →
      resolve_snapshot_name name available = name)
  ∧ (∀ c ∈ available, passesCutoff c name →
      resolve_snapshot_name name available ∈ available
      ∧ passesCutoff (resolve_snapshot_name name available) name
      ∧ (∀ d ∈ available, passesCutoff d name →
          ¬ scoreLt (pyRatio (resolve_snapshot_name name available) name,
              resolve_snapshot_name name available)
            (pyRatio d name, d))) := by
  refine ⟨?_, ?_, ?_⟩
  · intro h
    subst h
    rfl
  · intro hall
    have hs : gcmScored name available = [] := by
      unfold gcmScored
      rw [List.filterMap_eq_nil_iff]
      intro c hc
      rw [if_neg]
      exact fun hp => absurd hp.2.2 (not_le.mpr (hall c hc))
    have h1 : get_close_matches1 name available = [] := by
      unfold get_close_matches1
      rw [hs]
    unfold resolve_snapshot_name
    rw [h1]
  · intro c hc hp
    have hcmem := gcmScored_mem name available c hc hp
    cases hs : gcmScored name available with
    | nil =>
      rw [hs] at hcmem
      exact absurd hcmem (List.not_mem_nil _)
    | cons p ps =>
      have h1 : get_close_matches1 name available
          = [(ps.foldl scoreMax p).2] := by
        unfold get_close_matches1
        rw [hs]
      have h2 : resolve_snapshot_name name available
          = (ps.foldl scoreMax p).2 := by
        unfold resolve_snapshot_name
        rw [h1]
      have hMmem : ps.foldl scoreMax p ∈ gcmScored name available := by
        rw [hs]
        exact foldl_scoreMax_mem ps p
      have hM := mem_gcmScored name available _ hMmem
      rw [h2]
      refine ⟨hM.1, hM.2.1, ?_⟩
      intro d hd hpd
      have hdmem : (pyRatio d name, d) ∈ p :: ps := by
        rw [← hs]
        exact gcmScored_mem name available d hd hpd
      have hnot := foldl_scoreMax_not_lt ps p _ hdmem
      have heta : (pyRatio (ps.foldl scoreMax p).2 name,
          (ps.foldl scoreMax p).2) = ps.foldl scoreMax p := by
        rw [← hM.2.2]
      rw [heta]
      exact hnot

/-- Witness for the amended C7 at concrete stores. -/
theorem resolve_best_match_or_passthrough_witness :
    resolve_snapshot_name "x" [] = "x"
  ∧ resolve_snapshot_name "x" ["zzzzz"] = "x"
  ∧ resolve_snapshot_name "abc" ["abc"] ∈ ["abc"] := by
  refine ⟨?_, ?_, ?_⟩
  · exact (resolve_best_match_or_passthrough "x" []).1 rfl
  · refine (resolve_best_match_or_passthrough "x" ["zzzzz"]).2.1 ?_
    intro c hc
    rw [show c = "zzzzz" from by simpa using hc]
    unfold pyRatio
    rw [show matchTotal "zzzzz".data "x".data = 0 from by decide,
      show "zzzzz".length = 5 from rfl, show "x".length = 1 from rfl]
    norm_num [calculateRatio, gcmCutoff]
  · refine ((resolve_best_match_or_passthrough "abc" ["abc"]).2.2 "abc"
      (by simp) ?_).1
    refine ⟨?_, ?_, ?_⟩
    · unfold pyRealQuickRatio
      rw [show "abc".length = 3 from rfl]
      norm_num [calculateRatio, gcmCutoff]
    · unfold pyQuickRatio
      rw [show quickMatches "abc" "abc" = 3 from by decide,
        show "abc".length = 3 from rfl]
      norm_num [calculateRatio, gcmCutoff]
    · unfold pyRatio
      rw [show matchTotal "abc".data "abc".data = 3 from by decide,
        show "abc".length = 3 from rfl]
      norm_num [calculateRatio, gcmCutoff]

/-! ## Soundness of the `b2j` index -/

theorem mem_b2jAll (b : List Char) (c : Char) (j : Nat) :
    j ∈ b2jAll b c ↔ j < b.length ∧ b.getD j ' ' = c := by
  unfold b2jAll
  rw [List.mem_filter, List.mem_range]
  simp

theorem mkB2j_sound (b : List Char) :
    ∀ c j, j ∈ mkB2j b c → j < b.length ∧ b.getD j ' ' = c := by
  intro c j h
  unfold mkB2j at h
  split at h
  · exact absurd h (List.not_mem_nil j)
  · exact (mem_b2jAll b c j).mp h

/-- A character class that survives junk filtering contains every
position of that character. -/
theorem mkB2j_complete (b : List Char) :
    ∀ c j p, j ∈ mkB2j b c → p < b.length → b.getD p ' ' = c →
      p ∈ mkB2j b c := by
  intro c j p hj hp hc
  unfold mkB2j at hj ⊢
  split at hj
  · exact absurd hj (List.not_mem_nil j)
  · rename_i hcond
    rw [if_neg hcond]
    exact (mem_b2jAll b c p).mpr ⟨hp, hc⟩

theorem mkB2j_sorted (b : List Char) (c : Char) :
    (mkB2j b c).Pairwise (· < ·) := by
  unfold mkB2j
  split
  · exact List.Pairwise.nil
  · exact List.Pairwise.filter _ (List.pairwise_lt_range b.length)

/-! ## Invariants of `find_longest_match` -/

/-- A diagonal run of length `ℓ` ending at position pair `(i, j)`: each
of the `ℓ` trailing `b` positions `j - s` is indexed under the class of
the corresponding `a` character `a[i - s]`, and both coordinates stay
at or above the window floors. -/
def RunProp (a : List Char) (b2j : Char → List Nat) (alo blo : Nat)
    (i j ℓ : Nat) : Prop :=
  ℓ ≤ i + 1 ∧ ℓ ≤ j + 1 ∧ alo ≤ i + 1 - ℓ ∧ blo ≤ j + 1 - ℓ
  ∧ ∀ s < ℓ, (j - s) ∈ b2j (a.getD (i - s) ' ')

/-- Validity of a `j2len` row about to be consumed at row `i`: every
nonzero entry records a run ending at row `i - 1`. -/
def PrevWF (a : List Char) (b2j : Char → List Nat)
    (alo blo bhi i : Nat) (j2len : Nat → Nat) : Prop :=
  ∀ j, j2len j ≠ 0 →
    j < bhi ∧ 1 ≤ i ∧ RunProp a b2j alo blo (i - 1) j (j2len j)

/-- Well-formedness of a candidate best block `(i, j, k)`: within the
window on both sides, with matching content. -/
def BestWF (a b : List Char) (alo ahi blo bhi : Nat)
    (t : Nat × Nat × Nat) : Prop :=
  alo ≤ t.1 ∧ t.1 + t.2.2 ≤ ahi ∧ blo ≤ t.2.1 ∧ t.2.1 + t.2.2 ≤ bhi
  ∧ ∀ s < t.2.2, a.getD (t.1 + s) ' ' = b.getD (t.2.1 + s) ' '

/-- The run length computed for a kept `j` in row `i` is a valid run
ending at `(i, j)`. -/
theorem flmRow_k_runprop (a : List Char) (b2j : Char → List Nat)
    (alo blo bhi i : Nat) (j2len : Nat → Nat)
    (hprev : PrevWF a b2j alo blo bhi i j2len)
    (j : Nat) (hjc : j ∈ b2j (a.getD i ' ')) (hjblo : ¬ j < blo)
    (hi : alo ≤ i) :
    RunProp a b2j alo blo i j ((if j = 0 then 0 else j2len (j - 1)) + 1) := by
  by_cases hj0 : j = 0
  · subst hj0
    rw [if_pos rfl]
    refine ⟨by omega, by omega, by omega, by omega, ?_⟩
    intro s hs
    have hs0 : s = 0 := by omega
    subst hs0
    simpa using hjc
  · rw [if_neg hj0]
    by_cases hz : j2len (j - 1) = 0
    · rw [hz]
      refine ⟨by omega, by omega, by omega, by omega, ?_⟩
      intro s hs
      have hs0 : s = 0 := by omega
      subst hs0
      simpa using hjc
    · obtain ⟨hjbhi, hi1, hℓi, hℓj, haup, hbup, hrun⟩ := hprev (j - 1) hz
      refine ⟨by omega, by omega, by omega, by omega, ?_⟩
      intro s hs
      cases s with
      | zero => simpa using hjc
      | succ t =>
        have ht : t < j2len (j - 1) := by omega
        have h := hrun t ht
        have hia : i - 1 - t = i - (t + 1) := by omega
        have hjb : j - 1 - t = j - (t + 1) := by omega
        rw [hia, hjb] at h
        exact h

/-- Constructor form of `BestWF` at an explicit triple. -/
theorem bestWF_mk (a b : List Char) (alo ahi blo bhi i j k : Nat)
    (h1 : alo ≤ i) (h2 : i + k ≤ ahi) (h3 : blo ≤ j) (h4 : j + k ≤ bhi)
    (h5 : ∀ s < k, a.getD (i + s) ' ' = b.getD (j + s) ' ') :
    BestWF a b alo ahi blo bhi (i, j, k) :=
  ⟨h1, h2, h3, h4, h5⟩

/-- Processing one row of the dynamic program preserves the row and
best-block invariants, and the best size never shrinks. -/
theorem flmRow_wf (a b : List Char) (b2j : Char → List Nat)
    (alo blo ahi bhi i : Nat) (j2len : Nat → Nat)
    (hb2j : ∀ c j, j ∈ b2j c → j < b.length ∧ b.getD j ' ' = c)
    (hi : alo ≤ i) (hiahi : i < ahi)
    (hprev : PrevWF a b2j alo blo bhi i j2len) :
    ∀ (js : List Nat) (new : Nat → Nat) (best : Nat × Nat × Nat),
      (∀ j ∈ js, j ∈ b2j (a.getD i ' ')) →
      PrevWF a b2j alo blo bhi (i + 1) new →
      BestWF a b alo ahi blo bhi best →
      PrevWF a b2j alo blo bhi (i + 1)
          (flmRow i blo bhi j2len js new best).1
      ∧ BestWF a b alo ahi blo bhi (flmRow i blo bhi j2len js new best).2
      ∧ best.2.2 ≤ (flmRow i blo bhi j2len js new best).2.2.2
  | [], new, best => by
    intro _ hnew hbest
    exact ⟨hnew, hbest, le_refl _⟩
  | j :: js, new, best => by
    intro hjs hnew hbest
    simp only [flmRow]
    by_cases h1 : j < blo
    · rw [if_pos h1]
      exact flmRow_wf a b b2j alo blo ahi bhi i j2len hb2j hi hiahi hprev
        js new best (fun x hx => hjs x (List.mem_cons_of_mem _ hx))
        hnew hbest
    · rw [if_neg h1]
      by_cases h2 : bhi ≤ j
      · rw [if_pos h2]
        exact ⟨hnew, hbest, le_refl _⟩
      · rw [if_neg h2]
        have hrun : RunProp a b2j alo blo i j
            ((if j = 0 then 0 else j2len (j - 1)) + 1) :=
          flmRow_k_runprop a b2j alo blo bhi i j2len hprev j
            (hjs j (List.mem_cons_self _ _)) h1 hi
        obtain ⟨hka, hkb, hfa, hfb, hmem⟩ := hrun
        have hnew' : PrevWF a b2j alo blo bhi (i + 1)
            (fun j' => if j' = j
              then (if j = 0 then 0 else j2len (j - 1)) + 1
              else new j') := by
          intro j' hj'
          simp only at hj' ⊢
          by_cases he : j' = j
          · subst he
            rw [if_pos rfl] at hj' ⊢
            refine ⟨by omega, by omega, ?_⟩
            simpa using ⟨hka, hkb, hfa, hfb, hmem⟩
          · rw [if_neg he] at hj' ⊢
            exact hnew j' hj'
        have hbest' : BestWF a b alo ahi blo bhi
            (if best.2.2 < (if j = 0 then 0 else j2len (j - 1)) + 1
             then (i + 1 - ((if j = 0 then 0 else j2len (j - 1)) + 1),
                   j + 1 - ((if j = 0 then 0 else j2len (j - 1)) + 1),
                   (if j = 0 then 0 else j2len (j - 1)) + 1)
             else best) := by
          by_cases h3 : best.2.2 < (if j = 0 then 0 else j2len (j - 1)) + 1
          · rw [if_pos h3]
            refine ⟨by simpa using hfa, by simp; omega,
              by simpa using hfb, by simp; omega, ?_⟩
            intro s hs
            simp only at hs ⊢
            have ht : (if j = 0 then 0 else j2len (j - 1)) + 1 - 1 - s
                < (if j = 0 then 0 else j2len (j - 1)) + 1 := by omega
            have hm := hmem _ ht
            have hbc := (hb2j _ _ hm).2
            have e1 : i - ((if j = 0 then 0 else j2len (j - 1)) + 1 - 1 - s)
                = i + 1 - ((if j = 0 then 0 else j2len (j - 1)) + 1) + s := by
              omega
            have e2 : j - ((if j = 0 then 0 else j2len (j - 1)) + 1 - 1 - s)
                = j + 1 - ((if j = 0 then 0 else j2len (j - 1)) + 1) + s := by
              omega
            rw [e1, e2] at hbc
            exact hbc.symm
          · rw [if_neg h3]
            exact hbest
        have hmono : best.2.2 ≤
            (if best.2.2 < (if j = 0 then 0 else j2len (j - 1)) + 1
             then (i + 1 - ((if j = 0 then 0 else j2len (j - 1)) + 1),
                   j + 1 - ((if j = 0 then 0 else j2len (j - 1)) + 1),
                   (if j = 0 then 0 else j2len (j - 1)) + 1)
             else best).2.2 := by
          by_cases h3 : best.2.2 < (if j = 0 then 0 else j2len (j - 1)) + 1
          · rw [if_pos h3]
            simp
            omega
          · rw [if_neg h3]
        have hrec := flmRow_wf a b b2j alo blo ahi bhi i j2len hb2j hi
          hiahi hprev js
          (fun j' => if j' = j
            then (if j = 0 then 0 else j2len (j - 1)) + 1
            else new j')
          (if best.2.2 < (if j = 0 then 0 else j2len (j - 1)) + 1
           then (i + 1 - ((if j = 0 then 0 else j2len (j - 1)) + 1),
                 j + 1 - ((if j = 0 then 0 else j2len (j - 1)) + 1),
                 (if j = 0 then 0 else j2len (j - 1)) + 1)
           else best)
          (fun x hx => hjs x (List.mem_cons_of_mem _ hx)) hnew' hbest'
        exact ⟨hrec.1, hrec.2.1, le_trans hmono hrec.2.2⟩

/-- The row loop preserves the best-block invariant. -/
theorem flmRows_wf (a b : List Char) (b2j : Char → List Nat)
    (alo blo ahi bhi : Nat)
    (hb2j : ∀ c j, j ∈ b2j c → j < b.length ∧ b.getD j ' ' = c) :
    ∀ (n i : Nat) (j2len : Nat → Nat) (best : Nat × Nat × Nat),
      alo ≤ i → i + n ≤ ahi →
      PrevWF a b2j alo blo bhi i j2len →
      BestWF a b alo ahi blo bhi best →
      BestWF a b alo ahi blo bhi (flmRows a b2j blo bhi n i j2len best)
  | 0, i, j2len, best => fun _ _ _ hbest => hbest
  | n + 1, i, j2len, best => by
    intro hi hn hprev hbest
    simp only [flmRows]
    have hiahi : i < ahi := by omega
    have hrow := flmRow_wf a b b2j alo blo ahi bhi i j2len hb2j hi hiahi
      hprev (b2j (a.getD i ' ')) (fun _ => 0) best (fun _ hx => hx)
      (fun j hj => absurd rfl hj) hbest
    exact flmRows_wf a b b2j alo blo ahi bhi hb2j n (i + 1) _ _
      (by omega) (by omega) hrow.1 hrow.2.1

/-- The backward extension loop preserves the best-block invariant. -/
theorem extendBack_wf (a b : List Char) (alo blo ahi bhi : Nat) :
    ∀ (i j size : Nat),
      BestWF a b alo ahi blo bhi (i, j, size) →
      BestWF a b alo ahi blo bhi (extendBack a b alo blo i j size)
  | 0, j, size => fun h => h
  | i + 1, j, size => by
    intro hbest
    obtain ⟨hba, hia, hbb, hjb, hcont⟩ := hbest
    simp only at hba hia hbb hjb hcont
    simp only [extendBack]
    by_cases hc : alo < i + 1 ∧ blo < j ∧ a.getD i ' ' = b.getD (j - 1) ' '
    · rw [if_pos hc]
      obtain ⟨hc1, hc2, hc3⟩ := hc
      refine extendBack_wf a b alo blo ahi bhi i (j - 1) (size + 1)
        (bestWF_mk a b alo ahi blo bhi i (j - 1) (size + 1)
          (by omega) (by omega) (by omega) (by omega) ?_)
      intro s hs
      cases s with
      | zero =>
        simpa using hc3
      | succ t =>
        have e1 : i + (t + 1) = i + 1 + t := by omega
        have e2 : j - 1 + (t + 1) = j + t := by omega
        rw [e1, e2]
        exact hcont t (by omega)
    · rw [if_neg hc]
      exact ⟨hba, hia, hbb, hjb, hcont⟩

/-- The forward extension loop preserves the best-block invariant. -/
theorem extendFwd_wf (a b : List Char) (alo blo ahi bhi : Nat) :
    ∀ (f i j size : Nat),
      BestWF a b alo ahi blo bhi (i, j, size) →
      BestWF a b alo ahi blo bhi (extendFwd a b ahi bhi f i j size)
  | 0, i, j, size => fun h => h
  | f + 1, i, j, size => by
    intro hbest
    obtain ⟨hba, hia, hbb, hjb, hcont⟩ := hbest
    simp only at hba hia hbb hjb hcont
    simp only [extendFwd]
    by_cases hc : i + size < ahi ∧ j + size < bhi
        ∧ a.getD (i + size) ' ' = b.getD (j + size) ' '
    · rw [if_pos hc]
      obtain ⟨hc1, hc2, hc3⟩ := hc
      refine extendFwd_wf a b alo blo ahi bhi f i j (size + 1)
        (bestWF_mk a b alo ahi blo bhi i j (size + 1)
          (by omega) (by omega) (by omega) (by omega) ?_)
      intro s hs
      by_cases hss : s = size
      · subst hss
        exact hc3
      · exact hcont s (by omega)
    · rw [if_neg hc]
      exact ⟨hba, hia, hbb, hjb, hcont⟩

/-- `find_longest_match` returns a block inside the window whose
segments of `a` and `b` agree pointwise. -/
theorem find_longest_match_wf (a b : List Char) (b2j : Char → List Nat)
    (alo ahi blo bhi : Nat)
    (hb2j : ∀ c j, j ∈ b2j c → j < b.length ∧ b.getD j ' ' = c)
    (h1 : alo ≤ ahi) (h2 : blo ≤ bhi) :
    BestWF a b alo ahi blo bhi
      (find_longest_match a b b2j alo ahi blo bhi) := by
  unfold find_longest_match
  have hrows := flmRows_wf a b b2j alo blo ahi bhi hb2j (ahi - alo) alo
    (fun _ => 0) (alo, blo, 0) (le_refl _) (by omega)
    (fun j hj => absurd rfl hj)
    (bestWF_mk a b alo ahi blo bhi alo blo 0 (le_refl _) (by omega)
      (le_refl _) (by omega) (fun s hs => absurd hs (by omega)))
  have hback := extendBack_wf a b alo blo ahi bhi _ _ _
    (by
      obtain ⟨x1, x2, x3, x4, x5⟩ := hrows
      exact ⟨x1, x2, x3, x4, x5⟩)
  exact extendFwd_wf a b alo blo ahi bhi ahi _ _ _
    (by
      obtain ⟨x1, x2, x3, x4, x5⟩ := hback
      exact ⟨x1, x2, x3, x4, x5⟩)

/-- Total size of a list of matching blocks. -/
def blocksSum (l : List (Nat × Nat × Nat)) : Nat :=
  (l.map (fun x => x.2.2)).sum

theorem blocksSum_append (l1 l2 : List (Nat × Nat × Nat)) :
    blocksSum (l1 ++ l2) = blocksSum l1 + blocksSum l2 := by
  unfold blocksSum
  rw [List.map_append, List.sum_append]

theorem foldl_add_eq_blocksSum (l : List (Nat × Nat × Nat)) :
    ∀ n : Nat, l.foldl (fun acc x => acc + x.2.2) n = n + blocksSum l := by
  induction l with
  | nil => intro n; simp [blocksSum]
  | cons hd tl ih =>
    intro n
    simp only [List.foldl_cons, ih, blocksSum, List.map_cons, List.sum_cons]
    omega

theorem matchTotal_eq_blocksSum (a b : List Char) :
    matchTotal a b = blocksSum (get_matching_blocks a b (mkB2j b)) := by
  unfold matchTotal
  rw [foldl_add_eq_blocksSum]
  omega

/-- The matching blocks of a region fit inside it, on both sides. -/
theorem matchingBlocksF_sum_le (a b : List Char) (b2j : Char → List Nat)
    (hb2j : ∀ c j, j ∈ b2j c → j < b.length ∧ b.getD j ' ' = c) :
    ∀ (fuel alo ahi blo bhi : Nat), alo ≤ ahi → blo ≤ bhi →
      blocksSum (matchingBlocksF a b b2j fuel alo ahi blo bhi) ≤ ahi - alo
      ∧ blocksSum (matchingBlocksF a b b2j fuel alo ahi blo bhi)
          ≤ bhi - blo
  | 0, alo, ahi, blo, bhi => by
    intro _ _
    simp [matchingBlocksF, blocksSum]
  | fuel + 1, alo, ahi, blo, bhi => by
    intro h1 h2
    obtain ⟨hx1, hx2, hx3, hx4, _⟩ :=
      find_longest_match_wf a b b2j alo ahi blo bhi hb2j h1 h2
    simp only [matchingBlocksF]
    by_cases hk : (find_longest_match a b b2j alo ahi blo bhi).2.2 = 0
    · rw [if_pos hk]
      constructor <;> simp [blocksSum]
    · rw [if_neg hk]
      rw [blocksSum_append, blocksSum_append]
      have hL : blocksSum (if alo < (find_longest_match a b b2j alo ahi blo bhi).1
            ∧ blo < (find_longest_match a b b2j alo ahi blo bhi).2.1
          then matchingBlocksF a b b2j fuel alo
            (find_longest_match a b b2j alo ahi blo bhi).1 blo
            (find_longest_match a b b2j alo ahi blo bhi).2.1
          else [])
          ≤ (find_longest_match a b b2j alo ahi blo bhi).1 - alo
        ∧ blocksSum (if alo < (find_longest_match a b b2j alo ahi blo bhi).1
            ∧ blo < (find_longest_match a b b2j alo ahi blo bhi).2.1
          then matchingBlocksF a b b2j fuel alo
            (find_longest_match a b b2j alo ahi blo bhi).1 blo
            (find_longest_match a b b2j alo ahi blo bhi).2.1
          else [])
          ≤ (find_longest_match a b b2j alo ahi blo bhi).2.1 - blo := by
        by_cases hc : alo < (find_longest_match a b b2j alo ahi blo bhi).1
            ∧ blo < (find_longest_match a b b2j alo ahi blo bhi).2.1
        · rw [if_pos hc]
          exact matchingBlocksF_sum_le a b b2j hb2j fuel alo _ blo _
            (by omega) (by omega)
        · rw [if_neg hc]
          constructor <;> simp [blocksSum]
      have hR : blocksSum
            (if (find_longest_match a b b2j alo ahi blo bhi).1
                  + (find_longest_match a b b2j alo ahi blo bhi).2.2 < ahi
                ∧ (find_longest_match a b b2j alo ahi blo bhi).2.1
                  + (find_longest_match a b b2j alo ahi blo bhi).2.2 < bhi
              then matchingBlocksF a b b2j fuel
                ((find_longest_match a b b2j alo ahi blo bhi).1
                  + (find_longest_match a b b2j alo ahi blo bhi).2.2) ahi
                ((find_longest_match a b b2j alo ahi blo bhi).2.1
                  + (find_longest_match a b b2j alo ahi blo bhi).2.2) bhi
              else [])
            ≤ ahi - ((find_longest_match a b b2j alo ahi blo bhi).1
                + (find_longest_match a b b2j alo ahi blo bhi).2.2)
        ∧ blocksSum
            (if (find_longest_match a b b2j alo ahi blo bhi).1
                  + (find_longest_match a b b2j alo ahi blo bhi).2.2 < ahi
                ∧ (find_longest_match a b b2j alo ahi blo bhi).2.1
                  + (find_longest_match a b b2j alo ahi blo bhi).2.2 < bhi
              then matchingBlocksF a b b2j fuel
                ((find_longest_match a b b2j alo ahi blo bhi).1
                  + (find_longest_match a b b2j alo ahi blo bhi).2.2) ahi
                ((find_longest_match a b b2j alo ahi blo bhi).2.1
                  + (find_longest_match a b b2j alo ahi blo bhi).2.2) bhi
              else [])
            ≤ bhi - ((find_longest_match a b b2j alo ahi blo bhi).2.1
                + (find_longest_match a b b2j alo ahi blo bhi).2.2) := by
        by_cases hc : (find_longest_match a b b2j alo ahi blo bhi).1
              + (find_longest_match a b b2j alo ahi blo bhi).2.2 < ahi
            ∧ (find_longest_match a b b2j alo ahi blo bhi).2.1
              + (find_longest_match a b b2j alo ahi blo bhi).2.2 < bhi
        · rw [if_pos hc]
          exact matchingBlocksF_sum_le a b b2j hb2j fuel _ ahi _ bhi
            (by omega) (by omega)
        · rw [if_neg hc]
          constructor <;> simp [blocksSum]
      have hmid : blocksSum
            [((find_longest_match a b b2j alo ahi blo bhi).1,
              (find_longest_match a b b2j alo ahi blo bhi).2.1,
              (find_longest_match a b b2j alo ahi blo bhi).2.2)]
          = (find_longest_match a b b2j alo ahi blo bhi).2.2 := by
        simp [blocksSum]
      constructor <;> omega

/-- The slice `l[lo:hi]`. -/
def seg (l : List Char) (lo hi : Nat) : List Char :=
  (l.drop lo).take (hi - lo)

theorem seg_self (l : List Char) (x : Nat) : seg l x x = [] := by
  simp [seg]

theorem seg_length (l : List Char) (lo hi : Nat) (h1 : lo ≤ hi)
    (h2 : hi ≤ l.length) : (seg l lo hi).length = hi - lo := by
  unfold seg
  rw [List.length_take, List.length_drop]
  omega

theorem seg_split (l : List Char) (lo mid hi : Nat) (h1 : lo ≤ mid)
    (h2 : mid ≤ hi) : seg l lo hi = seg l lo mid ++ seg l mid hi := by
  unfold seg
  have e : hi - lo = (mid - lo) + (hi - mid) := by omega
  rw [e, List.take_add, List.drop_drop]
  have e2 : lo + (mid - lo) = mid := by omega
  rw [e2]

theorem seg_getElem (l : List Char) (lo hi n : Nat) (h1 : lo ≤ hi)
    (h2 : hi ≤ l.length) (hn : n < (seg l lo hi).length) :
    (seg l lo hi)[n]
      = l.get ⟨lo + n, by rw [seg_length l lo hi h1 h2] at hn; omega⟩ := by
  unfold seg at hn ⊢
  rw [List.getElem_take (l.drop lo), List.getElem_drop l]
  simp only [List.get_eq_getElem]

theorem seg_eq_of_getD (a b : List Char) (i j k : Nat)
    (hik : i + k ≤ a.length) (hjk : j + k ≤ b.length)
    (h : ∀ s < k, a.getD (i + s) ' ' = b.getD (j + s) ' ') :
    seg a i (i + k) = seg b j (j + k) := by
  have hla : (seg a i (i + k)).length = k := by
    rw [seg_length a i (i + k) (by omega) (by omega)]
    omega
  have hlb : (seg b j (j + k)).length = k := by
    rw [seg_length b j (j + k) (by omega) (by omega)]
    omega
  apply List.ext_getElem
  · rw [hla, hlb]
  · intro n h1 h2
    rw [seg_getElem a i (i + k) n (by omega) (by omega) h1,
      seg_getElem b j (j + k) n (by omega) (by omega) h2]
    have hn : n < k := by rw [hla] at h1; exact h1
    have hg := h n hn
    rw [List.getD_eq_getElem a ' ' (by omega),
      List.getD_eq_getElem b ' ' (by omega)] at hg
    simp only [List.get_eq_getElem]
    exact hg

/-- The whole list as a slice. -/
theorem seg_full (l : List Char) : seg l 0 l.length = l := by
  simp [seg]

/-- If the matching blocks of a region cover it completely on both
sides, the two slices are equal. -/
theorem matchingBlocksF_sum_eq (a b : List Char) (b2j : Char → List Nat)
    (hb2j : ∀ c j, j ∈ b2j c → j < b.length ∧ b.getD j ' ' = c) :
    ∀ (fuel alo ahi blo bhi : Nat), alo ≤ ahi → blo ≤ bhi →
      ahi ≤ a.length → bhi ≤ b.length →
      blocksSum (matchingBlocksF a b b2j fuel alo ahi blo bhi)
        = ahi - alo →
      blocksSum (matchingBlocksF a b b2j fuel alo ahi blo bhi)
        = bhi - blo →
      seg a alo ahi = seg b blo bhi
  | 0, alo, ahi, blo, bhi => by
    intro h1 h2 _ _ hsa hsb
    simp only [matchingBlocksF, blocksSum, List.map_nil, List.sum_nil]
      at hsa hsb
    have e1 : ahi = alo := by omega
    have e2 : bhi = blo := by omega
    rw [e1, e2, seg_self, seg_self]
  | fuel + 1, alo, ahi, blo, bhi => by
    intro h1 h2 hla hlb hsa hsb
    obtain ⟨hx1, hx2, hx3, hx4, hx5⟩ :=
      find_longest_match_wf a b b2j alo ahi blo bhi hb2j h1 h2
    simp only [matchingBlocksF] at hsa hsb
    set x := find_longest_match a b b2j alo ahi blo bhi with hxdef
    by_cases hk : x.2.2 = 0
    · rw [if_pos hk] at hsa hsb
      simp only [blocksSum, List.map_nil, List.sum_nil] at hsa hsb
      have e1 : ahi = alo := by omega
      have e2 : bhi = blo := by omega
      rw [e1, e2, seg_self, seg_self]
    · rw [if_neg hk] at hsa hsb
      rw [blocksSum_append, blocksSum_append] at hsa hsb
      have hmid : blocksSum [(x.1, x.2.1, x.2.2)] = x.2.2 := by
        simp [blocksSum]
      rw [hmid] at hsa hsb
      have hLle : blocksSum (if alo < x.1 ∧ blo < x.2.1
            then matchingBlocksF a b b2j fuel alo x.1 blo x.2.1
            else []) ≤ x.1 - alo
          ∧ blocksSum (if alo < x.1 ∧ blo < x.2.1
            then matchingBlocksF a b b2j fuel alo x.1 blo x.2.1
            else []) ≤ x.2.1 - blo := by
        by_cases hL : alo < x.1 ∧ blo < x.2.1
        · rw [if_pos hL]
          exact matchingBlocksF_sum_le a b b2j hb2j fuel alo x.1 blo
            x.2.1 (by omega) (by omega)
        · rw [if_neg hL]
          constructor <;> simp [blocksSum]
      have hRle : blocksSum (if x.1 + x.2.2 < ahi ∧ x.2.1 + x.2.2 < bhi
            then matchingBlocksF a b b2j fuel (x.1 + x.2.2) ahi
              (x.2.1 + x.2.2) bhi
            else []) ≤ ahi - (x.1 + x.2.2)
          ∧ blocksSum (if x.1 + x.2.2 < ahi ∧ x.2.1 + x.2.2 < bhi
            then matchingBlocksF a b b2j fuel (x.1 + x.2.2) ahi
              (x.2.1 + x.2.2) bhi
            else []) ≤ bhi - (x.2.1 + x.2.2) := by
        by_cases hR : x.1 + x.2.2 < ahi ∧ x.2.1 + x.2.2 < bhi
        · rw [if_pos hR]
          exact matchingBlocksF_sum_le a b b2j hb2j fuel (x.1 + x.2.2)
            ahi (x.2.1 + x.2.2) bhi (by omega) (by omega)
        · rw [if_neg hR]
          constructor <;> simp [blocksSum]
      have eLa : blocksSum (if alo < x.1 ∧ blo < x.2.1
            then matchingBlocksF a b b2j fuel alo x.1 blo x.2.1
            else []) = x.1 - alo := by omega
      have eLb : blocksSum (if alo < x.1 ∧ blo < x.2.1
            then matchingBlocksF a b b2j fuel alo x.1 blo x.2.1
            else []) = x.2.1 - blo := by omega
      have eRa : blocksSum (if x.1 + x.2.2 < ahi ∧ x.2.1 + x.2.2 < bhi
            then matchingBlocksF a b b2j fuel (x.1 + x.2.2) ahi
              (x.2.1 + x.2.2) bhi
            else []) = ahi - (x.1 + x.2.2) := by omega
      have eRb : blocksSum (if x.1 + x.2.2 < ahi ∧ x.2.1 + x.2.2 < bhi
            then matchingBlocksF a b b2j fuel (x.1 + x.2.2) ahi
              (x.2.1 + x.2.2) bhi
            else []) = bhi - (x.2.1 + x.2.2) := by omega
      have hsegL : seg a alo x.1 = seg b blo x.2.1 := by
        by_cases hL : alo < x.1 ∧ blo < x.2.1
        · rw [if_pos hL] at eLa eLb
          exact matchingBlocksF_sum_eq a b b2j hb2j fuel alo x.1 blo
            x.2.1 (by omega) (by omega) (by omega) (by omega) eLa eLb
        · rw [if_neg hL] at eLa eLb
          simp only [blocksSum, List.map_nil, List.sum_nil] at eLa eLb
          rw [show x.1 = alo from by omega,
            show x.2.1 = blo from by omega, seg_self, seg_self]
      have hsegR : seg a (x.1 + x.2.2) ahi = seg b (x.2.1 + x.2.2) bhi := by
        by_cases hR : x.1 + x.2.2 < ahi ∧ x.2.1 + x.2.2 < bhi
        · rw [if_pos hR] at eRa eRb
          exact matchingBlocksF_sum_eq a b b2j hb2j fuel (x.1 + x.2.2)
            ahi (x.2.1 + x.2.2) bhi (by omega) (by omega) hla hlb eRa eRb
        · rw [if_neg hR] at eRa eRb
          simp only [blocksSum, List.map_nil, List.sum_nil] at eRa eRb
          rw [show ahi = x.1 + x.2.2 from by omega,
            show bhi = x.2.1 + x.2.2 from by omega, seg_self, seg_self]
      have hsegM : seg a x.1 (x.1 + x.2.2) = seg b x.2.1 (x.2.1 + x.2.2) :=
        seg_eq_of_getD a b x.1 x.2.1 x.2.2 (by omega) (by omega) hx5
      rw [seg_split a alo x.1 ahi (by omega) (by omega),
        seg_split a x.1 (x.1 + x.2.2) ahi (by omega) (by omega),
        seg_split b blo x.2.1 bhi (by omega) (by omega),
        seg_split b x.2.1 (x.2.1 + x.2.2) bhi (by omega) (by omega),
        hsegL, hsegM, hsegR]

theorem matchTotal_le (a b : List Char) :
    matchTotal a b ≤ a.length ∧ matchTotal a b ≤ b.length := by
  rw [matchTotal_eq_blocksSum]
  unfold get_matching_blocks
  have h := matchingBlocksF_sum_le a b (mkB2j b) (mkB2j_sound b)
    (a.length + b.length + 1) 0 a.length 0 b.length (by omega) (by omega)
  omega

theorem matchTotal_full (a b : List Char)
    (h1 : matchTotal a b = a.length) (h2 : matchTotal a b = b.length) :
    a = b := by
  rw [matchTotal_eq_blocksSum] at h1 h2
  unfold get_matching_blocks at h1 h2
  have h := matchingBlocksF_sum_eq a b (mkB2j b) (mkB2j_sound b)
    (a.length + b.length + 1) 0 a.length 0 b.length (by omega) (by omega)
    (le_refl _) (le_refl _) (by omega) (by omega)
  rw [seg_full, seg_full] at h
  exact h

theorem string_length_data (s : String) : s.data.length = s.length := rfl

theorem pyRatio_le_one (x y : String) : pyRatio x y ≤ 1 := by
  unfold pyRatio calculateRatio
  by_cases h : x.length + y.length ≠ 0
  · rw [if_pos h]
    rw [div_le_one (by positivity)]
    have hm := matchTotal_le x.data y.data
    rw [string_length_data, string_length_data] at hm
    push_cast
    have : 2 * matchTotal x.data y.data ≤ x.length + y.length := by omega
    exact_mod_cast this
  · rw [if_neg h]

theorem pyRatio_eq_one (x y : String) (h : pyRatio x y = 1) : x = y := by
  unfold pyRatio calculateRatio at h
  by_cases hz : x.length + y.length ≠ 0
  · rw [if_pos hz] at h
    have hT : ((x.length + y.length : Nat) : ℚ) ≠ 0 := by
      exact_mod_cast hz
    rw [div_eq_one_iff_eq (by push_cast at hT ⊢; exact_mod_cast hT)] at h
    have h2 : 2 * matchTotal x.data y.data = x.length + y.length := by
      exact_mod_cast h
    have hm := matchTotal_le x.data y.data
    rw [string_length_data, string_length_data] at hm
    apply string_eq_of_data
    apply matchTotal_full
    · rw [string_length_data]
      omega
    · rw [string_length_data]
      omega
  · rw [not_not] at hz
    apply string_eq_of_data
    have hx : x.data.length = 0 := by rw [string_length_data]; omega
    have hy : y.data.length = 0 := by rw [string_length_data]; omega
    rw [List.length_eq_zero.mp hx, List.length_eq_zero.mp hy]

/-- The `avail` loop tallies one match per element as long as the
remaining availability covers the remaining needs. -/
theorem quickLoop_full (full : Char → Int) :
    ∀ (rest : List Char) (st : (Char → Option Int) × Nat),
      (∀ c, (st.1 c).elim (full c) (fun v => v) ≥ (rest.count c : Int)) →
      (rest.foldl (quickStep full) st).2 = st.2 + rest.length
  | [], st => by
    intro _
    simp
  | c :: cs, st => by
    intro hav
    have hc := hav c
    have hcount : (c :: cs).count c = cs.count c + 1 := by
      simp [List.count_cons]
    rw [hcount] at hc
    simp only [List.foldl_cons]
    have hstep : quickStep full st c
        = ((fun c' => if c' = c
            then some ((st.1 c).elim (full c) (fun v => v) - 1)
            else st.1 c'),
           st.2 + 1) := by
      unfold quickStep
      have hpos : (0 : Int) < (st.1 c).elim (full c) (fun v => v) := by
        omega
      dsimp only
      rw [if_pos hpos]
    rw [hstep]
    rw [quickLoop_full full cs _ ?_]
    · simp
      omega
    · intro c'
      by_cases he : c' = c
      · subst he
        have hc' := hav c'
        rw [show (c' :: cs).count c' = cs.count c' + 1 from
          by simp [List.count_cons]] at hc'
        simp only [eq_self_iff_true, if_true, Option.elim_some]
        omega
      · simp only [if_neg he]
        have := hav c'
        have hcount' : (c :: cs).count c' = cs.count c' := by
          simp [List.count_cons, he]
        rw [hcount'] at this
        exact this

theorem quickMatches_self (x : String) : quickMatches x x = x.length := by
  unfold quickMatches
  rw [quickLoop_full (fun c => (x.data.count c : Int)) x.data _ ?_]
  · simp [string_length_data]
  · intro c
    simp

/-! ## Self-comparison: the dynamic program stays on the diagonal -/

/-- A diagonal run of length `ℓ` ending at position `p` when comparing
`a` against itself: each of the `ℓ` trailing positions is indexed in
`b2j` under its own character, and the run stays at or above the
window floor `lo`. -/
def GoodDiag (a : List Char) (b2j : Char → List Nat) (lo p ℓ : Nat) :
    Prop :=
  lo + ℓ ≤ p + 1 ∧ ∀ s < ℓ, (p - s) ∈ b2j (a.getD (p - s) ' ')

/-- Dropping the newest position of a diagonal run leaves a diagonal
run ending one position earlier. -/
theorem goodDiag_shift (a : List Char) (b2j : Char → List Nat)
    (lo p ℓ : Nat) (h : GoodDiag a b2j lo p (ℓ + 1)) :
    GoodDiag a b2j lo (p - 1) ℓ := by
  obtain ⟨hb, hmem⟩ := h
  refine ⟨by omega, ?_⟩
  intro s hs
  have hm := hmem (s + 1) (by omega)
  have e : p - (s + 1) = p - 1 - s := by omega
  rw [e] at hm
  exact hm

/-- The `b`-side positions of any run against `a` itself form a
diagonal run: each matched position carries its own character's
class. -/
theorem runProp_goodDiag_b (a : List Char) (lo i j ℓ : Nat)
    (h : RunProp a (mkB2j a) lo lo i j ℓ) :
    GoodDiag a (mkB2j a) lo j ℓ := by
  obtain ⟨h1, h2, h3, h4, hmem⟩ := h
  refine ⟨by omega, ?_⟩
  intro s hs
  have hm := hmem s hs
  have hc := (mkB2j_sound a _ _ hm).2
  rw [← hc] at hm
  exact hm

/-- The `a`-side positions of any run against `a` itself form a
diagonal run: a nonempty class is junk-free, so it contains every
position of its character. -/
theorem runProp_goodDiag_a (a : List Char) (lo i j ℓ : Nat)
    (hia : i < a.length)
    (h : RunProp a (mkB2j a) lo lo i j ℓ) :
    GoodDiag a (mkB2j a) lo i ℓ := by
  obtain ⟨h1, h2, h3, h4, hmem⟩ := h
  refine ⟨by omega, ?_⟩
  intro s hs
  have hm := hmem s hs
  exact mkB2j_complete a _ _ _ hm (by omega) rfl

/-- Processing one row of the dynamic program against the string
itself keeps the best block diagonal: off-diagonal candidates are
dominated by an already-scored diagonal run, so only the diagonal
column can strictly improve the best.  The best size also dominates
every diagonal run ending at a processed row, and the new row's
diagonal entry dominates every diagonal run ending at the current
row. -/
theorem flmRow_diag (a : List Char) (lo hi i : Nat) (j2len : Nat → Nat)
    (hia : i < a.length) (hlo : lo ≤ i) (hihi : i < hi)
    (hprev : PrevWF a (mkB2j a) lo lo hi i j2len)
    (hJ : ∀ ℓ, 1 ≤ i → GoodDiag a (mkB2j a) lo (i - 1) ℓ →
      ℓ ≤ j2len (i - 1)) :
    ∀ (js : List Nat) (new : Nat → Nat) (best : Nat × Nat × Nat),
      js.Pairwise (· < ·) →
      (∀ j ∈ js, j ∈ mkB2j a (a.getD i ' ')) →
      best.1 = best.2.1 →
      (∀ p < i, ∀ ℓ, GoodDiag a (mkB2j a) lo p ℓ → ℓ ≤ best.2.2) →
      (i ∈ js ∨ ∀ ℓ, GoodDiag a (mkB2j a) lo i ℓ →
          ℓ ≤ best.2.2 ∧ ℓ ≤ new i) →
      (flmRow i lo hi j2len js new best).2.1
          = (flmRow i lo hi j2len js new best).2.2.1
      ∧ (∀ p ≤ i, ∀ ℓ, GoodDiag a (mkB2j a) lo p ℓ →
          ℓ ≤ (flmRow i lo hi j2len js new best).2.2.2)
      ∧ (∀ ℓ, GoodDiag a (mkB2j a) lo i ℓ →
          ℓ ≤ (flmRow i lo hi j2len js new best).1 i)
  | [], new, best => by
    intro hsort hjs hbd hDD hprog
    have hr : ∀ ℓ, GoodDiag a (mkB2j a) lo i ℓ →
        ℓ ≤ best.2.2 ∧ ℓ ≤ new i := by
      rcases hprog with hin | hr
      · exact absurd hin (List.not_mem_nil _)
      · exact hr
    refine ⟨hbd, ?_, fun ℓ hG => (hr ℓ hG).2⟩
    intro p hp ℓ hG
    rcases Nat.lt_or_ge p i with h | h
    · exact hDD p h ℓ hG
    · have hpi : p = i := by omega
      subst hpi
      exact (hr ℓ hG).1
  | j :: js, new, best => by
    intro hsort hjs hbd hDD hprog
    obtain ⟨hhead, htail⟩ := List.pairwise_cons.mp hsort
    simp only [flmRow]
    by_cases h1 : j < lo
    · rw [if_pos h1]
      refine flmRow_diag a lo hi i j2len hia hlo hihi hprev hJ js new best
        htail (fun x hx => hjs x (List.mem_cons_of_mem _ hx)) hbd hDD ?_
      rcases hprog with hin | hr
      · rcases List.mem_cons.mp hin with he | hin2
        · omega
        · exact Or.inl hin2
      · exact Or.inr hr
    · rw [if_neg h1]
      by_cases h2 : hi ≤ j
      · rw [if_pos h2]
        have hr : ∀ ℓ, GoodDiag a (mkB2j a) lo i ℓ →
            ℓ ≤ best.2.2 ∧ ℓ ≤ new i := by
          rcases hprog with hin | hr
          · rcases List.mem_cons.mp hin with he | hin2
            · omega
            · have := hhead i hin2
              omega
          · exact hr
        refine ⟨hbd, ?_, fun ℓ hG => (hr ℓ hG).2⟩
        intro p hp ℓ hG
        rcases Nat.lt_or_ge p i with h | h
        · exact hDD p h ℓ hG
        · have hpi : p = i := by omega
          subst hpi
          exact (hr ℓ hG).1
      · rw [if_neg h2]
        have hrun : RunProp a (mkB2j a) lo lo i j
            ((if j = 0 then 0 else j2len (j - 1)) + 1) :=
          flmRow_k_runprop a (mkB2j a) lo lo hi i j2len hprev j
            (hjs j (List.mem_cons_self _ _)) h1 hlo
        by_cases hji : j = i
        · set K := (if j = 0 then 0 else j2len (j - 1)) + 1 with hK
          have hkdom : ∀ ℓ, GoodDiag a (mkB2j a) lo i ℓ → ℓ ≤ K := by
            intro ℓ hG
            rw [hK, hji]
            by_cases hi0 : i = 0
            · rw [if_pos hi0]
              have := hG.1
              omega
            · rw [if_neg hi0]
              cases ℓ with
              | zero => omega
              | succ t =>
                have := hJ t (by omega)
                  (goodDiag_shift a (mkB2j a) lo i t hG)
                omega
          by_cases h3 : best.2.2 < K
          · rw [if_pos h3]
            refine flmRow_diag a lo hi i j2len hia hlo hihi hprev hJ js _ _
              htail (fun x hx => hjs x (List.mem_cons_of_mem _ hx))
              ?_ ?_ ?_
            · show i + 1 - K = j + 1 - K
              rw [hji]
            · intro p hp ℓ hG
              show ℓ ≤ K
              have := hDD p hp ℓ hG
              omega
            · refine Or.inr (fun ℓ hG => ?_)
              refine ⟨hkdom ℓ hG, ?_⟩
              show ℓ ≤ if i = j then K else new i
              rw [if_pos hji.symm]
              exact hkdom ℓ hG
          · rw [if_neg h3]
            refine flmRow_diag a lo hi i j2len hia hlo hihi hprev hJ js _
              best htail (fun x hx => hjs x (List.mem_cons_of_mem _ hx))
              hbd hDD ?_
            refine Or.inr (fun ℓ hG => ?_)
            have hk := hkdom ℓ hG
            refine ⟨by omega, ?_⟩
            show ℓ ≤ if i = j then K else new i
            rw [if_pos hji.symm]
            exact hk
        · have hnoupd : ¬ best.2.2 <
              (if j = 0 then 0 else j2len (j - 1)) + 1 := by
            rcases Nat.lt_or_ge j i with hji2 | hji2
            · have hG := runProp_goodDiag_b a lo i j _ hrun
              have := hDD j hji2 _ hG
              omega
            · have hjgt : i < j := by omega
              have hG := runProp_goodDiag_a a lo i j _ hia hrun
              have hinr : ∀ ℓ, GoodDiag a (mkB2j a) lo i ℓ →
                  ℓ ≤ best.2.2 ∧ ℓ ≤ new i := by
                rcases hprog with hin | hr
                · rcases List.mem_cons.mp hin with he | hin2
                  · omega
                  · have := hhead i hin2
                    omega
                · exact hr
              have := (hinr _ hG).1
              omega
          rw [if_neg hnoupd]
          refine flmRow_diag a lo hi i j2len hia hlo hihi hprev hJ js _ best
            htail (fun x hx => hjs x (List.mem_cons_of_mem _ hx)) hbd hDD ?_
          rcases hprog with hin | hr
          · rcases List.mem_cons.mp hin with he | hin2
            · exact absurd he.symm hji
            · exact Or.inl hin2
          · refine Or.inr (fun ℓ hG => ⟨(hr ℓ hG).1, ?_⟩)
            show ℓ ≤ if i = j
                then (if j = 0 then 0 else j2len (j - 1)) + 1 else new i
            rw [if_neg (fun h => hji h.symm)]
            exact (hr ℓ hG).2

/-- Over the whole row loop against the string itself, the best block
stays diagonal. -/
theorem flmRows_diag (a : List Char) (lo hi : Nat) (hhi : hi ≤ a.length) :
    ∀ (n i : Nat) (j2len : Nat → Nat) (best : Nat × Nat × Nat),
      lo ≤ i → i + n ≤ hi →
      PrevWF a (mkB2j a) lo lo hi i j2len →
      BestWF a a lo hi lo hi best →
      (∀ ℓ, 1 ≤ i → GoodDiag a (mkB2j a) lo (i - 1) ℓ →
        ℓ ≤ j2len (i - 1)) →
      best.1 = best.2.1 →
      (∀ p < i, ∀ ℓ, GoodDiag a (mkB2j a) lo p ℓ → ℓ ≤ best.2.2) →
      (flmRows a (mkB2j a) lo hi n i j2len best).1
        = (flmRows a (mkB2j a) lo hi n i j2len best).2.1
  | 0, i, j2len, best => by
    intro _ _ _ _ _ hbd _
    exact hbd
  | n + 1, i, j2len, best => by
    intro hloi hn hprev hbw hJ hbd hDD
    simp only [flmRows]
    have hia : i < a.length := by omega
    have hihi : i < hi := by omega
    have hprog : i ∈ mkB2j a (a.getD i ' ')
        ∨ ∀ ℓ, GoodDiag a (mkB2j a) lo i ℓ →
            ℓ ≤ best.2.2 ∧ ℓ ≤ (fun _ => 0) i := by
      by_cases hm : i ∈ mkB2j a (a.getD i ' ')
      · exact Or.inl hm
      · refine Or.inr (fun ℓ hG => ?_)
        have hz : ℓ = 0 := by
          by_contra hnz
          refine hm ?_
          have h0 := hG.2 0 (by omega)
          simpa using h0
        subst hz
        exact ⟨Nat.zero_le _, Nat.zero_le _⟩
    have hrow := flmRow_diag a lo hi i j2len hia hloi hihi hprev hJ
      (mkB2j a (a.getD i ' ')) (fun _ => 0) best (mkB2j_sorted a _)
      (fun _ hx => hx) hbd hDD hprog
    have hwf := flmRow_wf a a (mkB2j a) lo lo hi hi i j2len (mkB2j_sound a)
      hloi hihi hprev (mkB2j a (a.getD i ' ')) (fun _ => 0) best
      (fun _ hx => hx) (fun j hj => absurd rfl hj) hbw
    exact flmRows_diag a lo hi hhi n (i + 1) _ _ (by omega) (by omega)
      hwf.1 hwf.2.1 (fun ℓ _ hG => hrow.2.2 ℓ hG) hrow.1
      (fun p hp ℓ hG => hrow.2.1 p (by omega) ℓ hG)

/-- The backward extension loop started on a diagonal block against the
string itself runs all the way down to the window floor. -/
theorem extendBack_self (a : List Char) (lo : Nat) :
    ∀ (i size : Nat), lo ≤ i →
      extendBack a a lo lo i i size = (lo, lo, size + (i - lo))
  | 0, size => by
    intro h
    have h0 : lo = 0 := by omega
    subst h0
    simp [extendBack]
  | i + 1, size => by
    intro h
    simp only [extendBack]
    by_cases hc : lo < i + 1
    · rw [if_pos ⟨hc, hc, by simp⟩]
      simp only [Nat.add_sub_cancel]
      rw [extendBack_self a lo i (size + 1) (by omega)]
      have e : size + 1 + (i - lo) = size + (i + 1 - lo) := by omega
      rw [e]
    · rw [if_neg (fun hc' => hc hc'.1)]
      have h0 : lo = i + 1 := by omega
      subst h0
      have e : i + 1 - (i + 1) = 0 := by omega
      rw [e]
      simp

/-- The forward extension loop started on a diagonal block against the
string itself runs all the way up to the window ceiling. -/
theorem extendFwd_self (a : List Char) (hi : Nat) :
    ∀ (f i size : Nat), hi - (i + size) ≤ f →
      extendFwd a a hi hi f i i size = (i, i, size + (hi - (i + size)))
  | 0, i, size => by
    intro h
    have e : hi - (i + size) = 0 := by omega
    simp only [extendFwd, e, Nat.add_zero]
  | f + 1, i, size => by
    intro h
    simp only [extendFwd]
    by_cases hc : i + size < hi
    · rw [if_pos (show i + size < hi ∧ i + size < hi ∧ True from
        ⟨hc, hc, trivial⟩)]
      rw [extendFwd_self a hi f i (size + 1) (by omega)]
      have e : size + 1 + (hi - (i + (size + 1))) = size + (hi - (i + size)) := by
        omega
      rw [e]
    · rw [if_neg (fun hc' => hc hc'.1)]
      have e : hi - (i + size) = 0 := by omega
      rw [e]
      simp

/-- On any window of a string against itself, `find_longest_match`
returns the full diagonal of the window: the dynamic program's best
block is diagonal, and the two extension loops spread it across the
whole window. -/
theorem find_longest_match_self (a : List Char) (lo hi : Nat)
    (h1 : lo ≤ hi) (h2 : hi ≤ a.length) :
    find_longest_match a a (mkB2j a) lo hi lo hi = (lo, lo, hi - lo) := by
  unfold find_longest_match
  have hdiag := flmRows_diag a lo hi h2 (hi - lo) lo (fun _ => 0)
    (lo, lo, 0) (le_refl _) (by omega) (fun j hj => absurd rfl hj)
    (bestWF_mk a a lo hi lo hi lo lo 0 (le_refl _) (by omega) (le_refl _)
      (by omega) (fun s hs => absurd hs (by omega)))
    (fun ℓ hl hG => by
      show ℓ ≤ 0
      have := hG.1
      omega)
    rfl
    (fun p hp ℓ hG => by
      show ℓ ≤ 0
      have := hG.1
      omega)
  have hbw := flmRows_wf a a (mkB2j a) lo lo hi hi (mkB2j_sound a)
    (hi - lo) lo (fun _ => 0) (lo, lo, 0) (le_refl _) (by omega)
    (fun j hj => absurd rfl hj)
    (bestWF_mk a a lo hi lo hi lo lo 0 (le_refl _) (by omega) (le_refl _)
      (by omega) (fun s hs => absurd hs (by omega)))
  obtain ⟨hb1, hb2, hb3, hb4, hb5⟩ := hbw
  show extendFwd a a hi hi hi
      (extendBack a a lo lo
        (flmRows a (mkB2j a) lo hi (hi - lo) lo (fun _ => 0) (lo, lo, 0)).1
        (flmRows a (mkB2j a) lo hi (hi - lo) lo (fun _ => 0) (lo, lo, 0)).2.1
        (flmRows a (mkB2j a) lo hi (hi - lo) lo (fun _ => 0)
          (lo, lo, 0)).2.2).1
      (extendBack a a lo lo
        (flmRows a (mkB2j a) lo hi (hi - lo) lo (fun _ => 0) (lo, lo, 0)).1
        (flmRows a (mkB2j a) lo hi (hi - lo) lo (fun _ => 0) (lo, lo, 0)).2.1
        (flmRows a (mkB2j a) lo hi (hi - lo) lo (fun _ => 0)
          (lo, lo, 0)).2.2).2.1
      (extendBack a a lo lo
        (flmRows a (mkB2j a) lo hi (hi - lo) lo (fun _ => 0) (lo, lo, 0)).1
        (flmRows a (mkB2j a) lo hi (hi - lo) lo (fun _ => 0) (lo, lo, 0)).2.1
        (flmRows a (mkB2j a) lo hi (hi - lo) lo (fun _ => 0)
          (lo, lo, 0)).2.2).2.2
      = (lo, lo, hi - lo)
  have hEB : extendBack a a lo lo
      (flmRows a (mkB2j a) lo hi (hi - lo) lo (fun _ => 0) (lo, lo, 0)).1
      (flmRows a (mkB2j a) lo hi (hi - lo) lo (fun _ => 0) (lo, lo, 0)).2.1
      (flmRows a (mkB2j a) lo hi (hi - lo) lo (fun _ => 0) (lo, lo, 0)).2.2
      = (lo, lo,
        (flmRows a (mkB2j a) lo hi (hi - lo) lo (fun _ => 0) (lo, lo, 0)).2.2
        + ((flmRows a (mkB2j a) lo hi (hi - lo) lo (fun _ => 0)
            (lo, lo, 0)).1 - lo)) := by
    rw [← hdiag]
    exact extendBack_self a lo _ _ hb1
  rw [hEB]
  rw [extendFwd_self a hi hi lo _ (by omega)]
  have e : (flmRows a (mkB2j a) lo hi (hi - lo) lo (fun _ => 0)
        (lo, lo, 0)).2.2
      + ((flmRows a (mkB2j a) lo hi (hi - lo) lo (fun _ => 0)
        (lo, lo, 0)).1 - lo)
      + (hi - (lo +
        ((flmRows a (mkB2j a) lo hi (hi - lo) lo (fun _ => 0)
          (lo, lo, 0)).2.2
        + ((flmRows a (mkB2j a) lo hi (hi - lo) lo (fun _ => 0)
          (lo, lo, 0)).1 - lo)))) = hi - lo := by
    omega
  rw [e]

/-- Matching a string against itself matches every position. -/
theorem matchTotal_self (x : List Char) : matchTotal x x = x.length := by
  rw [matchTotal_eq_blocksSum]
  unfold get_matching_blocks
  simp only [matchingBlocksF]
  rw [find_longest_match_self x 0 x.length (by omega) (le_refl _)]
  rcases Nat.eq_zero_or_pos x.length with h0 | hpos
  · simp [h0, blocksSum]
  · simp [blocksSum, hpos.ne']

/-- `ratio` of a string with itself is `1`. -/
theorem pyRatio_self (x : String) : pyRatio x x = 1 := by
  unfold pyRatio calculateRatio
  by_cases h : x.length + x.length ≠ 0
  · rw [if_pos h, show matchTotal x.data x.data = x.length from by
      rw [matchTotal_self, string_length_data]]
    rw [div_eq_one_iff_eq (by exact_mod_cast h)]
    push_cast
    ring
  · rw [if_neg h]

/-- `quick_ratio` of a string with itself is `1`. -/
theorem pyQuickRatio_self (x : String) : pyQuickRatio x x = 1 := by
  unfold pyQuickRatio calculateRatio
  by_cases h : x.length + x.length ≠ 0
  · rw [if_pos h, quickMatches_self]
    rw [div_eq_one_iff_eq (by exact_mod_cast h)]
    push_cast
    ring
  · rw [if_neg h]

/-- `real_quick_ratio` of a string with itself is `1`. -/
theorem pyRealQuickRatio_self (x : String) : pyRealQuickRatio x x = 1 := by
  unfold pyRealQuickRatio calculateRatio
  by_cases h : x.length + x.length ≠ 0
  · rw [if_pos h, min_self]
    rw [div_eq_one_iff_eq (by exact_mod_cast h)]
    push_cast
    ring
  · rw [if_neg h]

/-- A word always passes all three cutoff tests against itself. -/
theorem passesCutoff_self (x : String) : passesCutoff x x := by
  refine ⟨?_, ?_, ?_⟩
  · rw [pyRealQuickRatio_self]
    norm_num [gcmCutoff]
  · rw [pyQuickRatio_self]
    norm_num [gcmCutoff]
  · rw [pyRatio_self]
    norm_num [gcmCutoff]

/-- C10: for every input name that is itself one of the stored snapshot
names, `resolve_snapshot_name` returns that name unchanged: the exact
match passes every cutoff with similarity `1`, every other candidate
scores at most `1` with equality only for the very same string, and the
maximum over `(ratio, name)` scores therefore lands on the exact
match. -/
theorem resolve_exact_match (name : String) (available : List String)
    (h : name ∈ available) :
    resolve_snapshot_name name available = name := by
  unfold resolve_snapshot_name get_close_matches1
  have hmem : (pyRatio name name, name) ∈ gcmScored name available :=
    gcmScored_mem name available name h (passesCutoff_self name)
  cases hg : gcmScored name available with
  | nil =>
    rfl
  | cons p ps =>
    rw [hg] at hmem
    show (ps.foldl scoreMax p).2 = name
    have hMnl := foldl_scoreMax_not_lt ps p (pyRatio name name, name) hmem
    have hMmem : ps.foldl scoreMax p ∈ gcmScored name available := by
      rw [hg]
      exact foldl_scoreMax_mem ps p
    have hM := mem_gcmScored name available _ hMmem
    rw [pyRatio_self] at hMnl
    have hle : (ps.foldl scoreMax p).1 ≤ 1 := by
      rw [hM.2.2]
      exact pyRatio_le_one _ _
    have hM1 : (ps.foldl scoreMax p).1 = 1 := by
      by_contra hne
      exact hMnl (Or.inl (lt_of_le_of_ne hle hne))
    have hr : pyRatio (ps.foldl scoreMax p).2 name = 1 := by
      rw [← hM.2.2]
      exact hM1
    exact pyRatio_eq_one _ _ hr

theorem resolve_exact_match_witness :
    "alpha" ∈ ["alpha", "beta"]
    ∧ resolve_snapshot_name "alpha" ["alpha", "beta"] = "alpha" :=
  ⟨by simp, resolve_exact_match "alpha" ["alpha", "beta"] (by simp)⟩
